import Mathlib

/-!
Verification of the core pipeline of the Semi-Structured-Dataset-Converter
repository: the text chunker (`src/utils/chunk.py`), the robust CSV reader
(`src/utils/io.py`), and the JSON-fragment merger and delimited-table parser
(`src/services/transformer.py`).

Python strings are embedded as `List Char`; Python `int` indices that can be
`-1` sentinels are embedded as `Int` or `Option Nat` as noted at each
definition.  Every definition is executable and fuel-based recursion is
structural, so concrete runs reduce by `rfl`/`decide`.
-/

namespace SSDC

/-! ### Python string primitives -/
/-- ASCII whitespace as recognised by Python's `str.strip()` / `str.isspace()`
(restricted to the ASCII range: space, tab, newline, carriage return,
vertical tab, form feed). -/
def isPySpace (c : Char) : Bool :=
  c = ' ' || c = '\t' || c = '\n' || c = '\r' || c = '\x0b' || c = '\x0c'

/-- Python `str.strip()`: remove leading and trailing whitespace. -/
def pyStrip (cs : List Char) : List Char :=
  ((cs.dropWhile isPySpace).reverse.dropWhile isPySpace).reverse

/-- Python `str.rfind(ch, start, stop)` for a single-character needle,
searching `cs[start:stop]` from the right; `none` embeds Python's `-1`.
`rfindBelow cs ch start k` scans indices `k-1, k-2, ...` down to `start`. -/
def rfindBelow (cs : List Char) (ch : Char) (start : Nat) : Nat → Option Nat
  | 0 => none
  | k + 1 => if start ≤ k ∧ cs[k]? = some ch then some k else rfindBelow cs ch start k

/-- Python `cs.rfind(ch, start, stop)` (single-character needle). -/
def pyRfind (cs : List Char) (ch : Char) (start stop : Nat) : Option Nat :=
  rfindBelow cs ch start (min stop cs.length)

/-! ### The chunker, from `src/utils/chunk.py` -/
/-- The split-point computation of `chunk_text` (`src/utils/chunk.py`,
lines 21-29), for current position `cur` and limit `m`: try the rightmost
newline in `[cur, cur+m)`, then the rightmost space, then fall back to
`end_pos - 1`, with the source's two defensive re-checks.  The result is an
`Int` because Python works with `-1` sentinels and `end_pos - 1` can be
negative when `m = 0`. -/
def splitIndex (cs : List Char) (m cur : Nat) : Int :=
  let endPos : Int := (cur : Int) + (m : Int)
  let r1 : Int := match pyRfind cs '\n' cur (cur + m) with
    | some j => (j : Int)
    | none => -1
  let s1 : Int := if r1 = -1 ∨ r1 < (cur : Int) then
      (match pyRfind cs ' ' cur (cur + m) with
       | some j => (j : Int)
       | none => -1)
    else r1
  let s2 : Int := if s1 = -1 ∨ s1 < (cur : Int) then endPos - 1 else s1
  let s3 : Int := if s2 < (cur : Int) then endPos - 1 else s2
  if s3 < (cur : Int) then (cs.length : Int) - 1 else s3

/-- The `while current_pos < length` loop of `chunk_text`, with the recursion
made structural on an explicit fuel; `chunk_text` itself supplies fuel
`length + 1`, which `chunkAux_fuel_stable` proves sufficient (the loop
advances `current_pos` by at least one character per iteration). -/
def chunkAux (cs : List Char) (m : Nat) : Nat → Nat → List (List Char)
  | 0, _ => []
  | fuel + 1, cur =>
    if cur < cs.length then
      if cs.length ≤ cur + m then
        let chunk := pyStrip (cs.drop cur)
        if chunk = [] then [] else [chunk]
      else
        let si := (splitIndex cs m cur).toNat
        let chunk := pyStrip ((cs.drop cur).take (si + 1 - cur))
        let rest := chunkAux cs m fuel (si + 1)
        if chunk = [] then rest else chunk :: rest
    else []

/-- `chunk_text(text, max_chars)` from `src/utils/chunk.py`: split `text` into
chunks of at most `max_chars` characters, preferring newline then space
boundaries; the final list comprehension filters empty chunks. -/
def chunk_text (cs : List Char) (m : Nat) : List (List Char) :=
  (chunkAux cs m (cs.length + 1) 0).filter (fun c => c ≠ [])

/-- The non-whitespace characters of a string, in order. -/
def nonSpace (cs : List Char) : List Char := cs.filter (fun c => !isPySpace c)

/-! ### Decimal digits (shared by the CSV reader's synthesized column names
and the JSON serializer) -/
/-- The character for the decimal digit `d < 10`. -/
def digitCh (d : Nat) : Char := Char.ofNat (48 + d)

/-- Decimal digit characters of `n`, most significant first; fuel-structural
(`natToDigits` supplies fuel `n + 1`, always sufficient). -/
def natDigitsF : Nat → Nat → List Char
  | 0, _ => []
  | f + 1, n => if n < 10 then [digitCh n] else natDigitsF f (n / 10) ++ [digitCh (n % 10)]

/-- The decimal representation of `n`, as Python's `str(n)` / `repr(n)`. -/
def natToDigits (n : Nat) : List Char := natDigitsF (n + 1) n

/-! ### The robust CSV reader, from `src/utils/io.py` -/
/-- Python `",".join(cells)`. -/
def joinComma (cells : List (List Char)) : List Char := List.intercalate [','] cells

/-- The synthesized column name `f"col_{i}"` of `src/utils/io.py`
lines 48 and 51. -/
def colName (i : Nat) : List Char := "col_".data ++ natToDigits i

/-- Split on a single separator character, Python `s.split(sep)`:
`splitOnChar ',' []` is `[[]]`, matching `"".split(",") == [""]`. -/
def splitOnChar (sep : Char) (cs : List Char) : List (List Char) :=
  cs.foldr (fun c acc =>
    if c = sep then [] :: acc
    else match acc with
      | [] => [[c]]
      | a :: rest => (c :: a) :: rest) [[]]

/-- Python `str.splitlines()` restricted to the `\n`, `\r\n`, `\r`
terminators: no trailing empty line, `splitLines [] = []`. -/
def splitLinesAux : List Char → List Char → List (List Char)
  | acc, [] => if acc = [] then [] else [acc.reverse]
  | acc, '\r' :: '\n' :: rest => acc.reverse :: splitLinesAux [] rest
  | acc, '\n' :: rest => acc.reverse :: splitLinesAux [] rest
  | acc, '\r' :: rest => acc.reverse :: splitLinesAux [] rest
  | acc, c :: rest => splitLinesAux (c :: acc) rest

def splitLines (cs : List Char) : List (List Char) := splitLinesAux [] cs

/-- A tabular result: a header row and the data rows, each a list of cells.
Missing values (pandas `NaN`) and empty strings are both embedded as the
empty cell. -/
structure Table where
  header : List (List Char)
  rows : List (List (List Char))
deriving Repr, DecidableEq

/-- The empty `pd.DataFrame()`. -/
def emptyTable : Table := ⟨[], []⟩

/-- Every row is exactly as wide as the header. -/
def rectangular (t : Table) : Prop := ∀ r ∈ t.rows, r.length = t.header.length

/-- Modelled from the spec: the primary parsing path of `robust_read_csv` is
the external library call `pd.read_csv(StringIO(s), header=0 if has_header
else None, on_bad_lines='skip', engine='python')` (`src/utils/io.py`
line 21), whose code is not part of this repository.  Following the spec's
description of this path — "standard CSV parse honoring header row
semantics, lenient row-skipping for structurally broken lines" — it is
modelled for unquoted comma-delimited text as: split into lines, skip blank
lines, split fields on commas; the header row (or, with `has_header=False`,
the first row's width with columns labelled `0..n-1`) fixes the column
count; a data row with more fields than the header is a bad line and is
skipped (`on_bad_lines='skip'`); a row with fewer fields is right-padded
with missing values (pandas `NaN`, embedded as the empty cell). -/
def pandasReadCsv (hasHeader : Bool) (cs : List Char) : Table :=
  let lines := (splitLines cs).filter (fun l => l ≠ [])
  match lines with
  | [] => emptyTable
  | first :: rest =>
    let fields := splitOnChar ',' first
    let header := if hasHeader then fields else (List.range fields.length).map natToDigits
    let dataLines := if hasHeader then rest else first :: rest
    let n := header.length
    ⟨header, (dataLines.map (splitOnChar ',')).filterMap (fun r =>
      if r.length > n then none
      else some (r ++ List.replicate (n - r.length) []))⟩

/-- `robust_read_csv` from `src/utils/io.py`: strip the input; empty input
yields an empty table (lines 17-19); otherwise the primary pandas path runs
(line 21, modelled by `pandasReadCsv`).  The manual fallback of lines 27-73
— embedded over tokenized rows by `fixRows` below — is reached only when
the primary parser raises `ParserError`, which never happens on the
unquoted comma-delimited texts this model covers, because
`on_bad_lines='skip'` silently drops structurally broken lines instead. -/
def robust_read_csv (csv_text : List Char) (has_header : Bool := true) : Table :=
  let stripped := pyStrip csv_text
  if stripped = [] then emptyTable else pandasReadCsv has_header stripped

/-- The manual fallback of `robust_read_csv` (`src/utils/io.py` lines
40-73), taken after the `csv.reader` tokenization has produced `all_rows`:
choose or synthesize the header row, then repair every data row to the
header's width — merging the cells from the last expected column index
onward into one comma-joined field when the row is too wide, right-padding
with empty cells when it is too narrow, and skipping empty rows.  The
`.error` branch embeds the `ValueError` that `pd.DataFrame(data_rows,
columns=[])` raises on line 54 when the column count is zero yet some row
is non-empty (unreachable from `csv.reader` output, whose first row is
never empty).  `headerOf` is the header-selection logic of lines 44-51:
take the first tokenized row as header (or synthesize `col_0..col_{n-1}`
names), falling back to names synthesized from the first data row. -/
def headerOf (has_header : Bool) (all_rows : List (List (List Char))) : List (List Char) :=
  let header0 : List (List Char) :=
    if has_header then all_rows.headD []
    else if all_rows.headD [] ≠ [] then (List.range (all_rows.headD []).length).map colName
    else []
  let data0 : List (List (List Char)) :=
    if has_header then all_rows.tail else all_rows
  if header0 = [] ∧ data0 ≠ [] then
    (if data0.headD [] ≠ [] then (List.range (data0.headD []).length).map colName else [])
  else header0

/-- The data rows of the fallback (`data_rows`, lines 46 and 49). -/
def dataOf (has_header : Bool) (all_rows : List (List (List Char))) :
    List (List (List Char)) :=
  if has_header then all_rows.tail else all_rows

/-- The body of the row-repair loop (lines 56-65) for one row: skip empty
rows, keep rows of the expected width, merge cells from index
`col_count - 1` onward into one comma-joined field when too wide, right-pad
with empty cells when too narrow. -/
def repairRowOpt (c : Nat) (row : List (List Char)) : Option (List (List Char)) :=
  if row = [] then none
  else if row.length = c then some row
  else if row.length > c then some (row.take (c - 1) ++ [joinComma (row.drop (c - 1))])
  else some (row ++ List.replicate (c - row.length) [])

def fixRows (has_header : Bool) (all_rows : List (List (List Char))) : Except String Table :=
  if all_rows = [] then .ok emptyTable
  else
    let header_row := headerOf has_header all_rows
    let data0 := dataOf has_header all_rows
    if header_row.length = 0 then
      if data0 ≠ [] then
        (if data0.all (fun r => r = []) then .ok ⟨header_row, data0⟩
         else .error "shape mismatch")
      else .ok emptyTable
    else
      let fixed_rows := data0.filterMap (repairRowOpt header_row.length)
      if fixed_rows ≠ [] then .ok ⟨header_row, fixed_rows⟩
      else .ok ⟨header_row, []⟩

/-- The repair rule exactly as the spec words it, for one non-empty data
row: "if its width equals the column count, keep as-is; if wider, merge all
cells from the last expected column index onward into one joined field; if
narrower, right-pad with empty-string cells". -/
def specRepairRow (colCount : Nat) (row : List (List Char)) : List (List Char) :=
  if row.length = colCount then row
  else if row.length > colCount then
    row.take (colCount - 1) ++ [joinComma (row.drop (colCount - 1))]
  else row ++ List.replicate (colCount - row.length) []

/-! ### The delimited-table parser, from `src/services/transformer.py`

`parse_tables_from_csv` matches the regular expression
`=== START OF TABLE: (.*?) ===\n(.*?)\n=== END OF TABLE: \1 ===` (DOTALL)
with `findall`.  The matcher below implements exactly that pattern's
backtracking search: scan left to right for the leftmost match; at a match
position try name candidates shortest-first (the first lazy group, with the
back-reference forcing the same name in the end marker), and for each name
try body candidates shortest-first (the second lazy group); matches are
non-overlapping, the scan resuming after each match. -/
def startMark : List Char := "=== START OF TABLE: ".data

/-- The literal ` ===\n` that closes the start marker after the name. -/
def headerSep : List Char := " ===\n".data

/-- The end marker for a given name (with the `\n` that precedes it). -/
def endTagFor (name : List Char) : List Char :=
  "\n=== END OF TABLE: ".data ++ name ++ " ===".data

/-- `leadsWith pat cs` holds when `pat` is an initial segment of `cs`. -/
def leadsWith : List Char → List Char → Bool
  | [], _ => true
  | _ :: _, [] => false
  | p :: ps, c :: cs => p = c && leadsWith ps cs

/-- Shortest-first search for the body: the least split `cs = body ++
endTag ++ rest` (the second lazy group followed by the end marker). -/
def findBodyAux (endTag : List Char) : List Char → Option (List Char × List Char)
  | [] => if leadsWith endTag [] then some ([], []) else none
  | c :: cs =>
    if leadsWith endTag (c :: cs) then some ([], (c :: cs).drop endTag.length)
    else
      match findBodyAux endTag cs with
      | some (b, r) => some (c :: b, r)
      | none => none

/-- Shortest-first search for the name (the first lazy group): accumulate
name characters (reversed in `nameRev`) until ` ===\n` follows and the rest
of the pattern matches with this name's end tag; on failure of the rest,
backtrack to a longer name. -/
def tryNamesAux : List Char → List Char → Option (List Char × List Char × List Char)
  | nameRev, cs =>
    if leadsWith headerSep cs then
      match findBodyAux (endTagFor nameRev.reverse) (cs.drop headerSep.length) with
      | some (b, r) => some (nameRev.reverse, b, r)
      | none =>
        match cs with
        | [] => none
        | c :: cs2 => tryNamesAux (c :: nameRev) cs2
    else
      match cs with
      | [] => none
      | c :: cs2 => tryNamesAux (c :: nameRev) cs2

/-- `re.findall` of the table pattern: scan for the leftmost occurrence of
the start marker whose name and body complete a match, emit the
`(name, body)` groups, and continue after the match.  Fuel-structural; the
fuel `cs.length` suffices because every step either advances one character
or consumes a whole (non-empty) match. -/
def findBlocksF : Nat → List Char → List (List Char × List Char)
  | 0, _ => []
  | f + 1, cs =>
    if leadsWith startMark cs then
      match tryNamesAux [] (cs.drop startMark.length) with
      | some (name, body, rest) => (name, body) :: findBlocksF f rest
      | none =>
        match cs with
        | [] => []
        | _ :: cs2 => findBlocksF f cs2
    else
      match cs with
      | [] => []
      | _ :: cs2 => findBlocksF f cs2

/-- All `(name, raw CSV body)` pairs matched in the response text. -/
def findTableBlocks (cs : List Char) : List (List Char × List Char) :=
  findBlocksF cs.length cs

/-- Python `dict` assignment `m[k] = v`: overwrite the value in place when
the key is present (keeping its position), else append the new pair. -/
def updAssoc {K V : Type} [DecidableEq K] (m : List (K × V)) (k : K) (v : V) :
    List (K × V) :=
  if m.any (fun p => p.1 = k) then
    m.map (fun p => if p.1 = k then (k, v) else p)
  else m ++ [(k, v)]

/-- Python `dict` lookup `m.get(k)`: the value at the first pair whose key
is `k`. -/
def lookupA {K V : Type} [DecidableEq K] : List (K × V) → K → Option V
  | [], _ => none
  | p :: rest, k => if p.1 = k then some p.2 else lookupA rest k

/-- `parse_tables_from_csv` from `src/services/transformer.py` lines 53-62:
parse each matched block's body with `robust_read_csv` and assign it into
the `tables` dict under the trimmed name.  The source's `if not df.empty`
branch assigns the very same value as its `else` branch, so the assignment
is unconditional. -/
def parse_tables_from_csv (cs : List Char) : List (List Char × Table) :=
  (findTableBlocks cs).foldl (fun acc nb =>
    updAssoc acc (pyStrip nb.1) (robust_read_csv nb.2 true)) []

/-! ### JSON values, from the `json` standard-library calls in
`merge_json_fragments` (`src/services/transformer.py`)

`json.loads` / `json.dumps(..., indent=2)` are modelled over the value type
`JValue`.  Two documented modelling restrictions: numbers are integers
(JSON fraction/exponent forms make the surrounding parse fail instead of
producing a float), and an object literal parses to its ordered key/value
pair list as written — duplicate keys are collapsed, exactly as Python's
`dict` construction would, by the same assignment fold (`updAssoc`) that
`dict.update` uses, so the merged results agree.  Lone surrogate `\u`
escapes are rejected (such strings are not representable here). -/
inductive JValue where
  | null : JValue
  | bool : Bool → JValue
  | num : Int → JValue
  | str : List Char → JValue
  | arr : List JValue → JValue
  | obj : List (List Char × JValue) → JValue

/-- The lowercase hexadecimal digit character for `d < 16`. -/
def hexDigitCh (d : Nat) : Char :=
  if d < 10 then Char.ofNat (48 + d) else Char.ofNat (87 + d)

/-- Four lowercase hex digits of `n < 0x10000`, as in `\uXXXX` escapes. -/
def hex4 (n : Nat) : List Char :=
  [hexDigitCh (n / 4096 % 16), hexDigitCh (n / 256 % 16),
   hexDigitCh (n / 16 % 16), hexDigitCh (n % 16)]

/-- One character as `json.dumps` (default `ensure_ascii=True`) emits it
inside a string literal: the two-character escapes for quote, backslash and
the named control characters, `\uXXXX` for other control and all non-ASCII
characters, and a UTF-16 surrogate pair for characters beyond `0xFFFF`. -/
def encodeChar (c : Char) : List Char :=
  if c = '"' then ['\\', '"']
  else if c = '\\' then ['\\', '\\']
  else if c = '\n' then ['\\', 'n']
  else if c = '\t' then ['\\', 't']
  else if c = '\r' then ['\\', 'r']
  else if c = '\x08' then ['\\', 'b']
  else if c = '\x0c' then ['\\', 'f']
  else if c.toNat < 0x20 then '\\' :: 'u' :: hex4 c.toNat
  else if c.toNat ≤ 0x7e then [c]
  else if c.toNat < 0x10000 then '\\' :: 'u' :: hex4 c.toNat
  else
    ('\\' :: 'u' :: hex4 (0xd800 + (c.toNat - 0x10000) / 0x400))
      ++ ('\\' :: 'u' :: hex4 (0xdc00 + (c.toNat - 0x10000) % 0x400))

/-- A JSON string literal: quote, escaped characters, quote. -/
def quoteStr (s : List Char) : List Char :=
  '"' :: ((s.map encodeChar).flatten ++ ['"'])

/-- Python's decimal rendering of an `int`. -/
def intChars (i : Int) : List Char :=
  if i < 0 then '-' :: natToDigits i.natAbs else natToDigits i.toNat

/-- The indentation `json.dumps(..., indent=2)` puts before an element at
nesting level `lvl`. -/
def indentChars (lvl : Nat) : List Char := List.replicate (2 * lvl) ' '

mutual

/-- `json.dumps(v, indent=2)` at nesting level `lvl`: pretty-printed JSON
text — elements and members one per line, indented two spaces per level,
`",\n"` between items, `": "` after keys, and `[]` with `\x7b\x7d` for the
empty containers. -/
def serializeV : Nat → JValue → List Char
  | _, .null => "null".data
  | _, .bool true => "true".data
  | _, .bool false => "false".data
  | _, .num i => intChars i
  | _, .str s => quoteStr s
  | _, .arr [] => "[]".data
  | lvl, .arr (v :: vs) =>
    '[' :: '\n' ::
      (serializeItems (lvl + 1) (v :: vs) ++ '\n' :: (indentChars lvl ++ [']']))
  | _, .obj [] => ['\x7b', '\x7d']
  | lvl, .obj (kv :: ms) =>
    '\x7b' :: '\n' ::
      (serializeMembers (lvl + 1) (kv :: ms) ++ '\n' :: (indentChars lvl ++ ['\x7d']))

def serializeItems : Nat → List JValue → List Char
  | _, [] => []
  | lvl, [v] => indentChars lvl ++ serializeV lvl v
  | lvl, v :: vs =>
    indentChars lvl ++ serializeV lvl v ++ ',' :: '\n' :: serializeItems lvl vs

def serializeMembers : Nat → List (List Char × JValue) → List Char
  | _, [] => []
  | lvl, [kv] => indentChars lvl ++ quoteStr kv.1 ++ ':' :: ' ' :: serializeV lvl kv.2
  | lvl, kv :: ms =>
    indentChars lvl ++ quoteStr kv.1 ++ ':' :: ' ' :: serializeV lvl kv.2
      ++ ',' :: '\n' :: serializeMembers lvl ms

end

/-- `json.dumps(v, indent=2)` at the top level. -/
def serialize (v : JValue) : List Char := serializeV 0 v

/-- The whitespace characters JSON allows between tokens. -/
def isJsonWs (c : Char) : Bool := c = ' ' || c = '\t' || c = '\n' || c = '\r'

def skipWs (cs : List Char) : List Char := cs.dropWhile isJsonWs

/-- The value of one hexadecimal digit character, upper or lower case. -/
def hexValue (c : Char) : Option Nat :=
  if '0' ≤ c ∧ c ≤ '9' then some (c.toNat - 48)
  else if 'a' ≤ c ∧ c ≤ 'f' then some (c.toNat - 87)
  else if 'A' ≤ c ∧ c ≤ 'F' then some (c.toNat - 55)
  else none

def isDigitCh (c : Char) : Bool := '0' ≤ c && c ≤ '9'

/-- Accumulate a run of decimal digits left to right onto `acc`. -/
def grabDigits : Nat → List Char → Nat × List Char
  | acc, [] => (acc, [])
  | acc, c :: cs =>
    if isDigitCh c then grabDigits (acc * 10 + (c.toNat - 48)) cs else (acc, c :: cs)

/-- The JSON integer token `-? (0 | [1-9][0-9]*)`: a leading `0` is never
followed by more digits (as in Python's number scanner, which stops there). -/
def parseIntTok : List Char → Option (Int × List Char)
  | '-' :: cs =>
    match cs with
    | '0' :: rest => some (0, rest)
    | c :: rest =>
      if '1' ≤ c ∧ c ≤ '9' then
        let pr := grabDigits (c.toNat - 48) rest
        some (-(pr.1 : Int), pr.2)
      else none
    | [] => none
  | '0' :: rest => some (0, rest)
  | c :: rest =>
    if '1' ≤ c ∧ c ≤ '9' then
      let pr := grabDigits (c.toNat - 48) rest
      some ((pr.1 : Int), pr.2)
    else none
  | [] => none

/-- The body of a JSON string literal after the opening quote, strict mode:
unescaped control characters are rejected; `\uXXXX` escapes decode, with a
high surrogate requiring its low-surrogate partner.  Fuel-structural; one
fuel per source character, so fuel `length + 1` always suffices. -/
def readHex4 : List Char → Option (Nat × List Char)
  | h1 :: h2 :: h3 :: h4 :: rest =>
    match hexValue h1, hexValue h2, hexValue h3, hexValue h4 with
    | some a, some b, some c, some d => some (((a * 16 + b) * 16 + c) * 16 + d, rest)
    | _, _, _, _ => none
  | _ => none

def parseStrF : Nat → List Char → Option (List Char × List Char)
  | 0, _ => none
  | f + 1, cs =>
    match cs with
    | [] => none
    | c :: rest =>
      if c = '"' then some ([], rest)
      else if c = '\\' then
        match rest with
        | [] => none
        | e :: rest2 =>
          if e = 'u' then
            match readHex4 rest2 with
            | none => none
            | some (n, rest3) =>
              if 0xd800 ≤ n ∧ n < 0xdc00 then
                match rest3 with
                | c2 :: c3 :: rest4 =>
                  if c2 = '\\' then
                    if c3 = 'u' then
                      match readHex4 rest4 with
                      | some (m2, rest5) =>
                        if 0xdc00 ≤ m2 ∧ m2 < 0xe000 then
                          (parseStrF f rest5).map (fun pr =>
                            (Char.ofNat (0x10000 + (n - 0xd800) * 0x400 + (m2 - 0xdc00)) :: pr.1,
                             pr.2))
                        else none
                      | none => none
                    else none
                  else none
                | _ => none
              else if 0xdc00 ≤ n ∧ n < 0xe000 then none
              else (parseStrF f rest3).map (fun pr => (Char.ofNat n :: pr.1, pr.2))
          else
            match (if e = '"' then some '"' else if e = '\\' then some '\\'
                   else if e = '/' then some '/' else if e = 'n' then some '\n'
                   else if e = 't' then some '\t' else if e = 'r' then some '\r'
                   else if e = 'b' then some '\x08' else if e = 'f' then some '\x0c'
                   else none) with
            | some ch => (parseStrF f rest2).map (fun pr => (ch :: pr.1, pr.2))
            | none => none
      else if c.toNat < 0x20 then none
      else (parseStrF f rest).map (fun pr => (c :: pr.1, pr.2))

/-- One-or-more comma-separated array elements up to `]`; the value parser
is passed in as `pv`, keeping the recursion structural on the fuel. -/
def parseElemsF (pv : List Char → Option (JValue × List Char)) :
    Nat → List Char → Option (List JValue × List Char)
  | 0, _ => none
  | f + 1, cs =>
    match pv cs with
    | none => none
    | some (v, r) =>
      match skipWs r with
      | ',' :: r2 =>
        match parseElemsF pv f r2 with
        | some (vs, rest) => some (v :: vs, rest)
        | none => none
      | ']' :: r2 => some ([v], r2)
      | _ => none

/-- One-or-more `"key": value` members up to the closing brace. -/
def parseMembersF (pv : List Char → Option (JValue × List Char)) :
    Nat → List Char → Option (List (List Char × JValue) × List Char)
  | 0, _ => none
  | f + 1, cs =>
    match skipWs cs with
    | '"' :: r =>
      match parseStrF (r.length + 1) r with
      | none => none
      | some (k, r2) =>
        match skipWs r2 with
        | ':' :: r3 =>
          match pv r3 with
          | none => none
          | some (v, r4) =>
            match skipWs r4 with
            | ',' :: r5 =>
              match parseMembersF pv f r5 with
              | some (ms, rest) => some ((k, v) :: ms, rest)
              | none => none
            | '\x7d' :: r5 => some ([(k, v)], r5)
            | _ => none
        | _ => none
    | _ => none

/-- One JSON value (with leading whitespace), `json.loads`-style.
Fuel-structural: the fuel drops per nesting level and per member, and every
such step consumes at least one character, so `length + 1` suffices. -/
def parseValF : Nat → List Char → Option (JValue × List Char)
  | 0, _ => none
  | f + 1, cs0 =>
    match skipWs cs0 with
    | [] => none
    | c :: r =>
      if c = '\x7b' then
        match skipWs r with
        | [] => none
        | c2 :: r2 =>
          if c2 = '\x7d' then some (.obj [], r2)
          else
            match parseMembersF (parseValF f) f r with
            | some (ms, rest) => some (.obj ms, rest)
            | none => none
      else if c = '[' then
        match skipWs r with
        | [] => none
        | c2 :: r2 =>
          if c2 = ']' then some (.arr [], r2)
          else
            match parseElemsF (parseValF f) f r with
            | some (vs, rest) => some (.arr vs, rest)
            | none => none
      else if c = '"' then
        match parseStrF (r.length + 1) r with
        | some (s, rest) => some (.str s, rest)
        | none => none
      else if leadsWith "null".data (c :: r) then some (.null, (c :: r).drop 4)
      else if leadsWith "true".data (c :: r) then some (.bool true, (c :: r).drop 4)
      else if leadsWith "false".data (c :: r) then some (.bool false, (c :: r).drop 5)
      else
        match parseIntTok (c :: r) with
        | some (i, rest) => some (.num i, rest)
        | none => none

/-- `json.loads`: parse one value and require only whitespace after it. -/
def parseJson (cs : List Char) : Option JValue :=
  match parseValF (cs.length + 1) cs with
  | some (v, rest) => if skipWs rest = [] then some v else none
  | none => none

/-- Python `merged_data.update(data)`: fold the pairs of `data` into the
accumulator dict by assignment, in order. -/
def dictUpdate (acc ms : List (List Char × JValue)) : List (List Char × JValue) :=
  ms.foldl (fun a kv => updAssoc a kv.1 kv.2) acc

/-- The accumulator built by the merge loop of `merge_json_fragments`
(lines 27-36): parse each fragment, skip parse failures and non-object
values, and fold object fragments in with `dict.update` semantics. -/
def mergedDict (frags : List (List Char)) : List (List Char × JValue) :=
  frags.foldl (fun acc frag =>
    match parseJson frag with
    | some (.obj ms) => dictUpdate acc ms
    | _ => acc) []

/-- The member lists of the fragments that parse as JSON objects, in order. -/
def parsedObjs (frags : List (List Char)) : List (List (List Char × JValue)) :=
  frags.filterMap (fun frag =>
    match parseJson frag with
    | some (.obj ms) => some ms
    | _ => none)

/-- The effective value an object literal gives a key: the last pair wins,
as in Python `dict` construction. -/
def lastVal (ms : List (List Char × JValue)) (k : List Char) : Option JValue :=
  (ms.reverse.find? (fun kv => kv.1 = k)).map (fun kv => kv.2)

/-- `merge_json_fragments` from `src/services/transformer.py` lines 12-40:
no fragments yields the empty string, one fragment is returned unchanged,
and two or more are parsed and folded into one object which is serialized
pretty-printed.  The source's final `except` fallback (`str(merged_data)`)
guards `json.dumps`, which cannot fail on values produced by `json.loads`,
so it has no counterpart here. -/
def merge_json_fragments (json_fragments : List (List Char)) : List Char :=
  match json_fragments with
  | [] => []
  | [f] => f
  | _ => serialize (.obj (mergedDict json_fragments))

/-- Input that cannot extend a decimal number: empty, or headed by a
non-digit.  Every separator the serializer emits after a number qualifies. -/
def noLeadDigit : List Char → Bool
  | [] => true
  | c :: _ => !isDigitCh c

theorem rfindBelow_bounds {cs : List Char} {ch : Char} {start j : Nat} :
    ∀ {k : Nat}, rfindBelow cs ch start k = some j → start ≤ j ∧ j < k := by
  intro k
  induction k with
  | zero => intro h; simp [rfindBelow] at h
  | succ k ih =>
    intro h
    rw [rfindBelow] at h
    split at h
    · rename_i hc
      cases h
      exact ⟨hc.1, Nat.lt_succ_self _⟩
    · have := ih h
      exact ⟨this.1, Nat.lt_succ_of_lt this.2⟩

/-- The boundary search never returns an index before `start` nor past
`min stop cs.length` — the embedded form of "rfind searches only in
`cs[start:stop]`". -/
theorem pyRfind_bounds {cs : List Char} {ch : Char} {start stop j : Nat}
    (h : pyRfind cs ch start stop = some j) :
    start ≤ j ∧ j < stop ∧ j < cs.length := by
  have := rfindBelow_bounds h
  exact ⟨this.1, lt_of_lt_of_le this.2 (min_le_left _ _), lt_of_lt_of_le this.2 (min_le_right _ _)⟩

/-! ### Chunker lemmas -/
/-- The chosen split point never lies before the current position, and (for a
positive limit) always lies before `cur + m`. -/
theorem splitIndex_bounds (cs : List Char) (m cur : Nat) (hcur : cur < cs.length) :
    (cur : Int) ≤ splitIndex cs m cur ∧ (0 < m → splitIndex cs m cur < (cur : Int) + m) := by
  unfold splitIndex
  cases h1 : pyRfind cs '\n' cur (cur + m) with
  | some j =>
    have hb1 := pyRfind_bounds h1
    cases h2 : pyRfind cs ' ' cur (cur + m) with
    | some j2 =>
      have hb2 := pyRfind_bounds h2
      simp only
      repeat' split
      all_goals omega
    | none =>
      simp only
      repeat' split
      all_goals omega
  | none =>
    cases h2 : pyRfind cs ' ' cur (cur + m) with
    | some j2 =>
      have hb2 := pyRfind_bounds h2
      simp only
      repeat' split
      all_goals omega
    | none =>
      simp only
      repeat' split
      all_goals omega

theorem splitIndex_toNat_ge (cs : List Char) (m cur : Nat) (hcur : cur < cs.length) :
    cur ≤ (splitIndex cs m cur).toNat := by
  have h := (splitIndex_bounds cs m cur hcur).1
  omega

theorem splitIndex_toNat_lt (cs : List Char) (m cur : Nat) (hcur : cur < cs.length)
    (hm : 0 < m) : (splitIndex cs m cur).toNat < cur + m := by
  have h1 := (splitIndex_bounds cs m cur hcur).1
  have h2 := (splitIndex_bounds cs m cur hcur).2 hm
  omega

theorem pyStrip_length_le (cs : List Char) : (pyStrip cs).length ≤ cs.length := by
  unfold pyStrip
  have h1 := (List.dropWhile_sublist (l := cs) (p := isPySpace)).length_le
  have h2 := (List.dropWhile_sublist (l := (cs.dropWhile isPySpace).reverse)
    (p := isPySpace)).length_le
  simp only [List.length_reverse] at *
  omega

theorem pyStrip_all_space {cs : List Char} (h : ∀ c ∈ cs, isPySpace c) :
    pyStrip cs = [] := by
  unfold pyStrip
  have h1 : cs.dropWhile isPySpace = [] := List.dropWhile_eq_nil_iff.mpr h
  simp [h1]

/-- Every chunk the loop emits is non-empty and at most `m` long. -/
theorem chunkAux_mem (cs : List Char) (m : Nat) (hm : 0 < m) :
    ∀ (fuel cur : Nat) (x : List Char), x ∈ chunkAux cs m fuel cur →
      x ≠ [] ∧ x.length ≤ m := by
  intro fuel
  induction fuel with
  | zero => intro cur x hx; simp [chunkAux] at hx
  | succ fuel ih =>
    intro cur x hx
    rw [chunkAux] at hx
    dsimp only at hx
    split at hx
    · rename_i hcur
      split at hx
      · rename_i hfits
        split at hx
        · simp at hx
        · rename_i hne
          simp only [List.mem_singleton] at hx
          subst hx
          refine ⟨hne, ?_⟩
          have := pyStrip_length_le (cs.drop cur)
          simp only [List.length_drop] at this
          omega
      · rename_i hfits
        split at hx
        · exact ih _ x hx
        · rename_i hne
          rcases List.mem_cons.mp hx with hx | hx
          · subst hx
            refine ⟨hne, ?_⟩
            have hle := pyStrip_length_le ((cs.drop cur).take
              ((splitIndex cs m cur).toNat + 1 - cur))
            have hsi := splitIndex_toNat_lt cs m cur hcur hm
            have htk : (((cs.drop cur).take ((splitIndex cs m cur).toNat + 1 - cur)).length)
                ≤ (splitIndex cs m cur).toNat + 1 - cur := by
              simp [List.length_take]
            omega
          · exact ih _ x hx
    · simp at hx

/-- Claim C4: every chunk is a non-empty string of length at most `m`;
`chunk_text("", m) = []`; all-whitespace input yields the empty sequence. -/
theorem chunk_text_chunks (cs : List Char) (m : Nat) (hm : 0 < m) :
    (∀ x ∈ chunk_text cs m, x ≠ [] ∧ x.length ≤ m)
    ∧ chunk_text ([] : List Char) m = []
    ∧ ((∀ c ∈ cs, isPySpace c) → chunk_text cs m = []) := by
  refine ⟨?_, ?_, ?_⟩
  · intro x hx
    exact chunkAux_mem cs m hm _ _ x (List.mem_of_mem_filter hx)
  · rfl
  · intro hsp
    unfold chunk_text
    suffices h : ∀ fuel cur, chunkAux cs m fuel cur = [] by
      rw [h]; rfl
    intro fuel
    induction fuel with
    | zero => intro cur; rfl
    | succ fuel ih =>
      intro cur
      rw [chunkAux]
      dsimp only
      split
      · rename_i hcur
        split
        · rename_i hfits
          have : pyStrip (cs.drop cur) = [] :=
            pyStrip_all_space (fun c hc => hsp c (List.mem_of_mem_drop hc))
          simp [this]
        · rename_i hfits
          have hslice : pyStrip ((cs.drop cur).take ((splitIndex cs m cur).toNat + 1 - cur))
              = [] :=
            pyStrip_all_space (fun c hc =>
              hsp c (List.mem_of_mem_drop (List.mem_of_mem_take hc)))
          simp [hslice, ih]
      · rfl

/-- Closed witness for `chunk_text_chunks`. -/
theorem chunk_text_chunks_witness :
    (∀ x ∈ chunk_text "hello world".data 4, x ≠ [] ∧ x.length ≤ 4)
    ∧ chunk_text ([] : List Char) 4 = []
    ∧ ((∀ c ∈ " \n\t ".data, isPySpace c) → chunk_text " \n\t ".data 4 = []) := by
  refine ⟨(chunk_text_chunks "hello world".data 4 (by decide)).1, rfl, fun _ => by decide⟩

theorem nonSpace_dropWhile (cs : List Char) :
    nonSpace (cs.dropWhile isPySpace) = nonSpace cs := by
  induction cs with
  | nil => rfl
  | cons c t ih =>
    by_cases hc : isPySpace c
    · simpa [nonSpace, List.dropWhile_cons, hc, List.filter_cons] using ih
    · simp [List.dropWhile_cons, hc]

theorem nonSpace_reverse (cs : List Char) : nonSpace cs.reverse = (nonSpace cs).reverse :=
  List.filter_reverse _ _

theorem nonSpace_pyStrip (cs : List Char) : nonSpace (pyStrip cs) = nonSpace cs := by
  unfold pyStrip
  rw [nonSpace_reverse, nonSpace_dropWhile, nonSpace_reverse, nonSpace_dropWhile,
    List.reverse_reverse]

theorem nonSpace_append (a b : List Char) :
    nonSpace (a ++ b) = nonSpace a ++ nonSpace b := by
  simp [nonSpace, List.filter_append]

/-- Dropping the empty chunks does not change the concatenation. -/
theorem flatten_filter_ne_nil (l : List (List Char)) :
    (l.filter (fun c => c ≠ [])).flatten = l.flatten := by
  induction l with
  | nil => rfl
  | cons c t ih =>
    simp only [ne_eq, decide_not] at ih
    by_cases hc : c = []
    · simp [List.filter_cons, hc, ih]
    · simp [List.filter_cons, hc, ih]

/-- The loop preserves the non-whitespace characters of the unconsumed
region: trimming at each boundary removes only whitespace. -/
theorem chunkAux_nonSpace (cs : List Char) (m : Nat) (hm : 0 < m) :
    ∀ (fuel cur : Nat), cs.length - cur < fuel →
      nonSpace (chunkAux cs m fuel cur).flatten = nonSpace (cs.drop cur) := by
  intro fuel
  induction fuel with
  | zero => intro cur h; exact absurd h (by omega)
  | succ fuel ih =>
    intro cur h
    rw [chunkAux]
    dsimp only
    split
    · rename_i hcur
      split
      · rename_i hfits
        split
        · rename_i hempty
          have hs := nonSpace_pyStrip (cs.drop cur)
          rw [hempty] at hs
          simpa [nonSpace] using hs.symm
        · simpa using nonSpace_pyStrip (cs.drop cur)
      · rename_i hfits
        have hge := splitIndex_toNat_ge cs m cur hcur
        have hlt := splitIndex_toNat_lt cs m cur hcur hm
        have hrec := ih ((splitIndex cs m cur).toNat + 1) (by omega)
        have hdd : (cs.drop cur).drop ((splitIndex cs m cur).toNat + 1 - cur)
            = cs.drop ((splitIndex cs m cur).toNat + 1) := by
          rw [List.drop_drop]
          congr 1
          omega
        have hsplit : cs.drop cur
            = (cs.drop cur).take ((splitIndex cs m cur).toNat + 1 - cur)
              ++ cs.drop ((splitIndex cs m cur).toNat + 1) := by
          rw [← hdd, List.take_append_drop]
        split
        · rename_i hempty
          have hs := nonSpace_pyStrip ((cs.drop cur).take ((splitIndex cs m cur).toNat + 1 - cur))
          rw [hempty] at hs
          rw [hrec]
          conv_rhs => rw [hsplit]
          rw [nonSpace_append, ← hs]
          simp [nonSpace]
        · rw [List.flatten_cons, nonSpace_append,
            nonSpace_pyStrip ((cs.drop cur).take ((splitIndex cs m cur).toNat + 1 - cur)),
            hrec]
          conv_rhs => rw [hsplit]
          rw [nonSpace_append]
    · rename_i hcur
      have hd : cs.drop cur = [] := List.drop_eq_nil_of_le (by omega)
      simp [hd, nonSpace]

/-- Claim C7: the ordered sequence of non-whitespace characters of the input
is preserved across the chunking — concatenating the chunks reconstructs the
input up to the whitespace trimmed at the boundaries. -/
theorem chunk_text_reconstructs (cs : List Char) (m : Nat) (hm : 0 < m) :
    nonSpace (chunk_text cs m).flatten = nonSpace cs := by
  unfold chunk_text
  rw [flatten_filter_ne_nil]
  have h := chunkAux_nonSpace cs m hm (cs.length + 1) 0 (by omega)
  simpa using h

/-- Closed witness for `chunk_text_reconstructs`. -/
theorem chunk_text_reconstructs_witness :
    nonSpace (chunk_text "one two three".data 5).flatten = nonSpace "one two three".data :=
  chunk_text_reconstructs "one two three".data 5 (by decide)

/-- Iterating the loop with any surplus fuel computes the same chunks: the
loop terminates within `length - cur` iterations because each iteration
advances the position by at least one character. -/
theorem chunkAux_fuel_stable (cs : List Char) (m : Nat) :
    ∀ (f g cur : Nat), cs.length - cur < f → cs.length - cur < g →
      chunkAux cs m f cur = chunkAux cs m g cur := by
  intro f
  induction f with
  | zero => intro g cur hf _; exact absurd hf (by omega)
  | succ f ih =>
    intro g cur hf hg
    cases g with
    | zero => exact absurd hg (by omega)
    | succ g =>
      rw [chunkAux, chunkAux]
      dsimp only
      split
      · rename_i hcur
        split
        · rfl
        · rename_i hfits
          have hge := splitIndex_toNat_ge cs m cur hcur
          rw [ih g ((splitIndex cs m cur).toNat + 1) (by omega) (by omega)]
      · rfl

/-- Claim C8: `chunk_text` terminates — surplus fuel never changes the result
because every iteration advances the position by at least one character
(`cur < split + 1`), and the backward boundary search never selects a split
point before the start of the current unconsumed region. -/
theorem chunk_text_terminates (cs : List Char) (m : Nat) (hm : 0 < m) :
    (∀ extra, chunkAux cs m (cs.length + 1 + extra) 0 = chunkAux cs m (cs.length + 1) 0)
    ∧ (∀ cur, cur < cs.length → cur < (splitIndex cs m cur).toNat + 1)
    ∧ (∀ ch start stop j, pyRfind cs ch start stop = some j → start ≤ j) := by
  refine ⟨fun extra => chunkAux_fuel_stable cs m _ _ 0 (by omega) (by omega), ?_, ?_⟩
  · intro cur hcur
    have := splitIndex_toNat_ge cs m cur hcur
    omega
  · intro ch start stop j hj
    exact (pyRfind_bounds hj).1

/-- Closed witness for `chunk_text_terminates`. -/
theorem chunk_text_terminates_witness :
    chunkAux "ab cd".data 3 ("ab cd".data.length + 1 + 7) 0
      = chunkAux "ab cd".data 3 ("ab cd".data.length + 1) 0 :=
  (chunk_text_terminates "ab cd".data 3 (by decide)).1 7

/-! ### CSV reader lemmas -/
/-- With a header row present and non-empty, the fallback repair loop keeps
the header and maps every non-empty data row through exactly the spec's
repair rule (`specRepairRow`), skipping empty rows. -/
theorem fixRows_repair (hdr : List (List Char)) (rows : List (List (List Char)))
    (hh : hdr ≠ []) :
    fixRows true (hdr :: rows)
      = .ok ⟨hdr, rows.filterMap (fun row =>
          if row = [] then none else some (specRepairRow hdr.length row))⟩ := by
  have hhd : headerOf true (hdr :: rows) = hdr := by
    unfold headerOf
    simp [hh]
  have hdat : dataOf true (hdr :: rows) = rows := by
    unfold dataOf
    simp
  unfold fixRows
  rw [if_neg (by simp : ¬(hdr :: rows = []))]
  dsimp only
  rw [hhd, hdat, if_neg (by simpa using hh)]
  have hfm : rows.filterMap (repairRowOpt hdr.length)
      = rows.filterMap (fun row =>
          if row = [] then none else some (specRepairRow hdr.length row)) := by
    apply List.filterMap_congr
    intro row _
    unfold repairRowOpt specRepairRow
    by_cases h0 : row = []
    · simp [h0]
    · by_cases h1 : row.length = hdr.length
      · simp [h0, h1]
      · by_cases h2 : row.length > hdr.length
        · simp [h0, h1, h2]
        · simp [h0, h1, h2]
  rw [hfm]
  split
  · rfl
  · rename_i hfe
    simp only [ne_eq, Decidable.not_not] at hfe
    rw [hfe]

/-- Claim C1 (amended): on `"a,b\n1,2,3\n4"` the primary lenient parser
skips the overlong row and pads the short one, returning the single data
row `[4, NaN]`; the merge-into-last-column / right-pad repair belongs to
the manual fallback, which on this example's tokenized rows produces
exactly `[1, "2,3"]` and `[4, ""]`, and in general maps every non-empty
data row through the spec's repair rule. -/
theorem robust_read_csv_merge_pad :
    robust_read_csv "a,b\n1,2,3\n4".data true
      = ⟨["a".data, "b".data], [["4".data, []]]⟩
    ∧ fixRows true [["a".data, "b".data], ["1".data, "2".data, "3".data], ["4".data]]
      = .ok ⟨["a".data, "b".data], [["1".data, "2,3".data], ["4".data, []]]⟩
    ∧ (∀ (hdr : List (List Char)) (rows : List (List (List Char))), hdr ≠ [] →
        fixRows true (hdr :: rows)
          = .ok ⟨hdr, rows.filterMap (fun row =>
              if row = [] then none else some (specRepairRow hdr.length row))⟩) :=
  ⟨rfl, rfl, fixRows_repair⟩

/-- Closed witness for `robust_read_csv_merge_pad`. -/
theorem robust_read_csv_merge_pad_witness :
    fixRows true (["a".data] :: [["1".data, "2".data]])
      = .ok ⟨["a".data], [["1,2".data]]⟩ :=
  (robust_read_csv_merge_pad.2.2 ["a".data] [["1".data, "2".data]] (by decide)).trans rfl

/-- Counterexample to claim C1 as stated: `robust_read_csv` on
`"a,b\n1,2,3\n4"` does not return the claimed rows `[[1, "2,3"], [4, ""]]`
— the primary parser has already dropped the overlong row, and no merged
cell `"2,3"` ever appears. -/
theorem robust_read_csv_example_not_merged :
    (robust_read_csv "a,b\n1,2,3\n4".data true).rows
      ≠ [["1".data, "2,3".data], ["4".data, []]]
    ∧ ["1".data, "2,3".data] ∉ (robust_read_csv "a,b\n1,2,3\n4".data true).rows := by
  decide

/-- Rows padded to width `n` (with overlong rows dropped) all have width `n`. -/
theorem padRows_length {n : Nat} {rows : List (List (List Char))} :
    ∀ r ∈ rows.filterMap (fun r0 => if r0.length > n then none
      else some (r0 ++ List.replicate (n - r0.length) ([] : List Char))), r.length = n := by
  intro r hr
  simp only [List.mem_filterMap] at hr
  obtain ⟨r0, _, hmk⟩ := hr
  by_cases h : r0.length > n
  · rw [if_pos h] at hmk; cases hmk
  · rw [if_neg h] at hmk
    cases hmk
    simp only [List.length_append, List.length_replicate]
    omega

/-- The spec-modelled primary path always returns a rectangular table. -/
theorem pandasReadCsv_rectangular (hh : Bool) (cs : List Char) :
    rectangular (pandasReadCsv hh cs) := by
  unfold pandasReadCsv
  dsimp only
  split
  · intro r hr; simp [emptyTable] at hr
  · intro r hr
    exact padRows_length r hr

/-- Every repaired row has exactly the expected width `c` (for `c ≠ 0`). -/
theorem repairRows_length (c : Nat) (hc : ¬c = 0) (rows : List (List (List Char))) :
    ∀ r ∈ rows.filterMap (repairRowOpt c), r.length = c := by
  intro r hr
  simp only [List.mem_filterMap] at hr
  obtain ⟨row, _, hmk⟩ := hr
  rw [repairRowOpt] at hmk
  by_cases h0 : row = []
  · rw [if_pos h0] at hmk; cases hmk
  · rw [if_neg h0] at hmk
    by_cases h1 : row.length = c
    · rw [if_pos h1] at hmk; cases hmk; exact h1
    · rw [if_neg h1] at hmk
      by_cases h2 : row.length > c
      · rw [if_pos h2] at hmk; cases hmk
        simp only [List.length_append, List.length_take, List.length_singleton]
        omega
      · rw [if_neg h2] at hmk; cases hmk
        simp only [List.length_append, List.length_replicate]
        omega

/-- Every table the fallback returns is rectangular. -/
theorem fixRows_rectangular (hh : Bool) (rows : List (List (List Char))) (t : Table)
    (h : fixRows hh rows = .ok t) : rectangular t := by
  revert h
  unfold fixRows
  dsimp only
  split
  · intro h
    cases h
    intro r hr; simp [emptyTable] at hr
  · split
    · rename_i hcc
      split
      · split
        · rename_i hall
          intro h
          cases h
          intro r hr
          simp only [List.all_eq_true, decide_eq_true_eq] at hall
          simp [hall r hr, hcc]
        · intro h; simp at h
      · intro h
        cases h
        intro r hr; simp [emptyTable] at hr
    · rename_i hcc
      split
      · intro h
        cases h
        intro r hr
        exact repairRows_length _ hcc _ r hr
      · intro h
        cases h
        intro r hr; simp at hr

/-- Claim C6 (amended): every table `robust_read_csv` or the fallback
repair returns is rectangular — every row has exactly as many cells as the
header; on the fallback path width mismatches are repaired (merged or
padded), but the primary lenient parser skips overlong rows and the repair
loop drops empty rows, so rectangularity is not achieved by repair alone. -/
theorem robust_read_csv_rectangular :
    (∀ (cs : List Char) (hh : Bool), rectangular (robust_read_csv cs hh))
    ∧ (∀ (hh : Bool) (rows : List (List (List Char))) (t : Table),
        fixRows hh rows = .ok t → rectangular t) := by
  constructor
  · intro cs hh
    unfold robust_read_csv
    dsimp only
    split
    · intro r hr; simp [emptyTable] at hr
    · exact pandasReadCsv_rectangular hh _
  · exact fixRows_rectangular

/-- Closed witness for `robust_read_csv_rectangular`. -/
theorem robust_read_csv_rectangular_witness :
    rectangular (robust_read_csv "a,b\n1".data true)
    ∧ rectangular (⟨["a".data], []⟩ : Table) :=
  ⟨robust_read_csv_rectangular.1 "a,b\n1".data true,
   robust_read_csv_rectangular.2 true [["a".data]] ⟨["a".data], []⟩ rfl⟩

/-- Counterexample to claim C6 as stated: on `"x,y\na,b,c"` the only data
row is rejected by the primary lenient parser (`on_bad_lines='skip'`), not
repaired into the table — the result has a header and no rows at all. -/
theorem robust_read_csv_rejects_row :
    (robust_read_csv "x,y\na,b,c".data true).rows = []
    ∧ (robust_read_csv "x,y\na,b,c".data true).header = ["x".data, "y".data] := by
  decide

/-- Claim C9: `robust_read_csv("")` returns an empty table (and never
raises); all-whitespace input likewise; and when tokenization leaves no
rows at all, the fallback returns an empty table rather than an error. -/
theorem robust_read_csv_empty_input :
    robust_read_csv [] true = emptyTable
    ∧ robust_read_csv " \n\t ".data true = emptyTable
    ∧ (∀ hh : Bool, fixRows hh [] = .ok emptyTable) :=
  ⟨rfl, by decide, fun _ => rfl⟩

/-! ### Table parser lemmas -/
theorem lookupA_mapUpd_ne {K V : Type} [DecidableEq K] (m : List (K × V)) (k k' : K)
    (v : V) (hne : k' ≠ k) :
    lookupA (m.map (fun p => if p.1 = k then (k, v) else p)) k' = lookupA m k' := by
  induction m with
  | nil => rfl
  | cons q m ih =>
    by_cases hq : q.1 = k
    · simp only [List.map_cons, if_pos hq, lookupA]
      rw [if_neg (by simpa using (Ne.symm hne)), if_neg (by rw [hq]; exact Ne.symm hne), ih]
    · simp only [List.map_cons, if_neg hq, lookupA, ih]

theorem lookupA_mapUpd_eq {K V : Type} [DecidableEq K] (m : List (K × V)) (k : K) (v : V)
    (hany : m.any (fun p => p.1 = k)) :
    lookupA (m.map (fun p => if p.1 = k then (k, v) else p)) k = some v := by
  induction m with
  | nil => simp at hany
  | cons q m ih =>
    by_cases hq : q.1 = k
    · simp [List.map_cons, if_pos hq, lookupA]
    · simp only [List.any_cons, Bool.or_eq_true, decide_eq_true_eq] at hany
      rcases hany with h | h

      · exact absurd h hq
      · simp only [List.map_cons, if_neg hq, lookupA, if_neg hq]
        exact ih h

theorem lookupA_not_mem {K V : Type} [DecidableEq K] (m : List (K × V)) (k : K)
    (hany : ¬m.any (fun p => p.1 = k)) : lookupA m k = none := by
  induction m with
  | nil => rfl
  | cons q m ih =>
    simp only [List.any_cons, Bool.or_eq_true, decide_eq_true_eq, not_or] at hany
    simp only [lookupA, if_neg hany.1]
    exact ih (by simpa using hany.2)

theorem lookupA_append_single {K V : Type} [DecidableEq K] (m : List (K × V))
    (k k' : K) (v : V) (hne : k' ≠ k) :
    lookupA (m ++ [(k, v)]) k' = lookupA m k' := by
  induction m with
  | nil => simp [lookupA, Ne.symm hne]
  | cons q m ih =>
    by_cases hq : q.1 = k'
    · simp [lookupA, hq]
    · simp [lookupA, hq, ih]

/-- Dict assignment updates the assigned key and nothing else. -/
theorem lookupA_updAssoc {K V : Type} [DecidableEq K] (m : List (K × V)) (k k' : K)
    (v : V) :
    lookupA (updAssoc m k v) k' = if k' = k then some v else lookupA m k' := by
  unfold updAssoc
  by_cases hany : m.any (fun p => p.1 = k)
  · rw [if_pos hany]
    by_cases hk : k' = k
    · subst hk; rw [if_pos rfl]; exact lookupA_mapUpd_eq m k' v hany
    · rw [if_neg hk]; exact lookupA_mapUpd_ne m k k' v hk
  · rw [if_neg hany]
    by_cases hk : k' = k
    · subst hk
      rw [if_pos rfl]
      induction m with
      | nil => simp [lookupA]
      | cons q m ih =>
        simp only [List.any_cons, Bool.or_eq_true, decide_eq_true_eq, not_or] at hany
        simp only [List.cons_append, lookupA, if_neg hany.1]
        exact ih (by simpa using hany.2)
    · rw [if_neg hk]; exact lookupA_append_single m k k' v hk

/-- Folding dict assignments over the matched blocks: the value at key `k`
comes from the last block whose trimmed name is `k`, and from the initial
accumulator when no block's name matches. -/
theorem lookupA_foldBlocks (l : List (List Char × List Char)) :
    ∀ (acc : List (List Char × Table)) (k : List Char),
      lookupA (l.foldl (fun a nb => updAssoc a (pyStrip nb.1) (robust_read_csv nb.2 true)) acc) k
      = match l.reverse.find? (fun nb => pyStrip nb.1 = k) with
        | some nb => some (robust_read_csv nb.2 true)
        | none => lookupA acc k := by
  induction l with
  | nil => intro acc k; rfl
  | cons nb l ih =>
    intro acc k
    rw [List.foldl_cons, ih, List.reverse_cons, List.find?_append]
    cases hf : l.reverse.find? (fun nb => pyStrip nb.1 = k) with
    | some nb' => rfl
    | none =>
      simp only [Option.none_orElse]
      rw [lookupA_updAssoc]
      by_cases hk : k = pyStrip nb.1
      · rw [if_pos hk]
        have : (fun nb2 => decide (pyStrip nb2.1 = k)) nb = true := by simpa using hk.symm
        simp [List.find?, this]
      · rw [if_neg hk]
        have : (fun nb2 => decide (pyStrip nb2.1 = k)) nb = false := by
          simpa using fun h => hk h.symm
        simp [List.find?, this]

/-- Claim C3: a single properly delimited table is extracted with its name
and raw CSV body; mismatched start/end names are never paired, yielding an
empty mapping; and whenever no marker pair matches, the mapping is empty. -/
theorem parse_tables_markers :
    findTableBlocks
        "=== START OF TABLE: T1 ===\na,b\n1,2\n=== END OF TABLE: T1 ===".data
      = [("T1".data, "a,b\n1,2".data)]
    ∧ parse_tables_from_csv
        "=== START OF TABLE: T1 ===\na,b\n1,2\n=== END OF TABLE: T1 ===".data
      = [("T1".data, ⟨["a".data, "b".data], [["1".data, "2".data]]⟩)]
    ∧ findTableBlocks
        "=== START OF TABLE: T1 ===\na,b\n1,2\n=== END OF TABLE: T2 ===".data = []
    ∧ parse_tables_from_csv
        "=== START OF TABLE: T1 ===\na,b\n1,2\n=== END OF TABLE: T2 ===".data = []
    ∧ (∀ cs : List Char, findTableBlocks cs = [] → parse_tables_from_csv cs = []) := by
  refine ⟨by decide, by decide, by decide, by decide, ?_⟩
  intro cs h
  unfold parse_tables_from_csv
  rw [h]
  rfl

/-- Closed witness for `parse_tables_markers`. -/
theorem parse_tables_markers_witness :
    parse_tables_from_csv "no markers in here".data = [] :=
  parse_tables_markers.2.2.2.2 "no markers in here".data (by decide)

/-- Claim C10: the mapping holds an entry for every matched block, keyed by
the trimmed name — even when the block's body parses to an empty table —
and on duplicate trimmed names the later block's table wins (the lookup
equals the parse of the last matching block). -/
theorem parse_tables_every_block (cs : List Char) :
    (∀ nb ∈ findTableBlocks cs, ∃ t : Table,
        lookupA (parse_tables_from_csv cs) (pyStrip nb.1) = some t)
    ∧ (∀ k, lookupA (parse_tables_from_csv cs) k
        = match (findTableBlocks cs).reverse.find? (fun nb => pyStrip nb.1 = k) with
          | some nb => some (robust_read_csv nb.2 true)
          | none => none)
    ∧ parse_tables_from_csv "=== START OF TABLE: E ===\n\n=== END OF TABLE: E ===".data
      = [("E".data, emptyTable)] := by
  refine ⟨?_, ?_, by decide⟩
  · intro nb hnb
    rw [parse_tables_from_csv, lookupA_foldBlocks]
    have hex : ∃ nb2 ∈ (findTableBlocks cs).reverse,
        (fun nb2 => decide (pyStrip nb2.1 = pyStrip nb.1)) nb2 = true :=
      ⟨nb, List.mem_reverse.mpr hnb, by simp⟩
    have hs := List.find?_isSome.mpr hex
    rcases Option.isSome_iff_exists.mp hs with ⟨nb', hnb'⟩
    rw [hnb']
    exact ⟨robust_read_csv nb'.2 true, rfl⟩
  · intro k
    rw [parse_tables_from_csv, lookupA_foldBlocks]
    rfl

/-- Closed witness for `parse_tables_every_block`. -/
theorem parse_tables_every_block_witness :
    ∃ t : Table,
      lookupA (parse_tables_from_csv
          "=== START OF TABLE: A ===\nx\n=== END OF TABLE: A ===".data)
        (pyStrip "A".data) = some t :=
  (parse_tables_every_block
      "=== START OF TABLE: A ===\nx\n=== END OF TABLE: A ===".data).1
    ("A".data, "x".data) (by decide)

/-! ### Decimal digit lemmas (for the number codec round-trip) -/

theorem digitCh_facts : ∀ d, d < 10 → (digitCh d).toNat = 48 + d
    ∧ isDigitCh (digitCh d) = true ∧ isJsonWs (digitCh d) = false := by
  decide

theorem natDigitsF_head : ∀ (f n : Nat), n < f →
    ∃ c t, natDigitsF f n = c :: t ∧ 48 ≤ c.toNat ∧ c.toNat ≤ 57
      ∧ (0 < n → 49 ≤ c.toNat) := by
  intro f
  induction f with
  | zero => intro n h; exact absurd h (by omega)
  | succ f ih =>
    intro n h
    rw [natDigitsF]
    by_cases h10 : n < 10
    · rw [if_pos h10]
      obtain ⟨hd1, hd2, hd3⟩ := digitCh_facts n h10
      exact ⟨digitCh n, [], rfl, by omega, by omega, fun h0 => by omega⟩
    · rw [if_neg h10]
      obtain ⟨c, t, heq, h1, h2, h3⟩ := ih (n / 10) (by omega)
      rw [heq]
      exact ⟨c, t ++ [digitCh (n % 10)], by simp, h1, h2, fun _ => h3 (by omega)⟩

theorem natDigitsF_all_digits : ∀ (f n : Nat), n < f →
    ∀ c ∈ natDigitsF f n, isDigitCh c = true := by
  intro f
  induction f with
  | zero => intro n h; exact absurd h (by omega)
  | succ f ih =>
    intro n h c hc
    rw [natDigitsF] at hc
    by_cases h10 : n < 10
    · rw [if_pos h10] at hc
      simp only [List.mem_singleton] at hc
      subst hc
      exact (digitCh_facts n h10).2.1
    · rw [if_neg h10] at hc
      rcases List.mem_append.mp hc with hc | hc
      · exact ih (n / 10) (by omega) c hc
      · simp only [List.mem_singleton] at hc
        subst hc
        exact (digitCh_facts (n % 10) (by omega)).2.1

theorem grabDigits_stop (acc : Nat) (rest : List Char) (h : noLeadDigit rest = true) :
    grabDigits acc rest = (acc, rest) := by
  cases rest with
  | nil => rfl
  | cons c t =>
    simp only [noLeadDigit, Bool.not_eq_true'] at h
    simp [grabDigits, h]

/-- Consuming a rendered digit run multiplies the accumulator by the right
power of ten and adds the value. -/
theorem grabDigits_run : ∀ (f n : Nat), n < f →
    ∃ k, 0 < k ∧ ∀ (acc : Nat) (rest : List Char),
      grabDigits acc (natDigitsF f n ++ rest) = grabDigits (acc * 10 ^ k + n) rest := by
  intro f
  induction f with
  | zero => intro n h; exact absurd h (by omega)
  | succ f ih =>
    intro n h
    by_cases h10 : n < 10
    · refine ⟨1, by omega, fun acc rest => ?_⟩
      rw [natDigitsF, if_pos h10]
      obtain ⟨hd1, hd2, hd3⟩ := digitCh_facts n h10
      have harg : acc * 10 + ((digitCh n).toNat - 48) = acc * 10 ^ 1 + n := by
        rw [hd1, pow_one]
        omega
      simp only [List.cons_append, List.nil_append, grabDigits, hd2, if_pos rfl, harg]
      simp
    · obtain ⟨k, hk, hrun⟩ := ih (n / 10) (by omega)
      refine ⟨k + 1, by omega, fun acc rest => ?_⟩
      rw [natDigitsF, if_neg h10, List.append_assoc, List.cons_append, List.nil_append,
        hrun]
      obtain ⟨hd1, hd2, hd3⟩ := digitCh_facts (n % 10) (by omega)
      have harg : (acc * 10 ^ k + n / 10) * 10 + ((digitCh (n % 10)).toNat - 48)
          = acc * 10 ^ (k + 1) + n := by
        rw [hd1, pow_succ, ← Nat.mul_assoc, Nat.add_mul]
        generalize acc * 10 ^ k = p
        omega
      simp only [grabDigits, hd2, if_pos rfl, harg]
      simp

theorem char_le_char {a b : Char} : a ≤ b ↔ a.toNat ≤ b.toNat := by
  rw [Char.le_def, UInt32.le_def]
  exact Iff.rfl

theorem isDigitCh_iff {c : Char} : isDigitCh c = true ↔ 48 ≤ c.toNat ∧ c.toNat ≤ 57 := by
  have h0 : ('0' : Char).toNat = 48 := rfl
  have h9 : ('9' : Char).toNat = 57 := rfl
  simp only [isDigitCh, Bool.and_eq_true, decide_eq_true_eq, char_le_char, h0, h9]

/-- Reading back a rendered positive number: the digit run begins with a
nonzero digit and `grabDigits` recovers the value, stopping at `rest`. -/
theorem grabDigits_eval (rest : List Char) (h : noLeadDigit rest = true) :
    ∀ n : Nat, 0 < n → ∃ c t, natDigitsF (n + 1) n = c :: t
      ∧ 49 ≤ c.toNat ∧ c.toNat ≤ 57
      ∧ grabDigits (c.toNat - 48) (t ++ rest) = (n, rest) := by
  intro n hn
  obtain ⟨c, t, heq, h48, h57, h49⟩ := natDigitsF_head (n + 1) n (by omega)
  obtain ⟨k, hk, hrun⟩ := grabDigits_run (n + 1) n (by omega)
  refine ⟨c, t, heq, h49 hn, h57, ?_⟩
  have h0 : grabDigits 0 (natDigitsF (n + 1) n ++ rest) = (n, rest) := by
    rw [hrun]
    simpa using grabDigits_stop (0 * 10 ^ k + n) rest h
  rw [heq, List.cons_append] at h0
  have hdig : isDigitCh c = true := isDigitCh_iff.mpr ⟨by omega, h57⟩
  rw [grabDigits, if_pos hdig] at h0
  simpa using h0

/-- `parseIntTok` on a nonzero-digit-headed list reads the digit run. -/
theorem parseIntTok_posRun (c : Char) (t : List Char) (hm : c ≠ '-') (h0 : c ≠ '0')
    (h19 : '1' ≤ c ∧ c ≤ '9') :
    parseIntTok (c :: t)
      = some (((grabDigits (c.toNat - 48) t).1 : Int), (grabDigits (c.toNat - 48) t).2) := by
  rw [parseIntTok.eq_def]
  split
  · rename_i cs heq
    exact absurd (List.cons.inj heq).1 hm
  · rename_i rest heq
    exact absurd (List.cons.inj heq).1 h0
  · rename_i c2 rest2 g1 g2 heq
    obtain ⟨hc2, hr2⟩ := List.cons.inj heq
    subst hc2
    subst hr2
    rw [if_pos h19]
  · rename_i heq
    cases heq

/-- `parseIntTok` on a minus sign followed by a nonzero digit run. -/
theorem parseIntTok_negRun (c : Char) (t : List Char) (h0 : c ≠ '0')
    (h19 : '1' ≤ c ∧ c ≤ '9') :
    parseIntTok ('-' :: c :: t)
      = some (-((grabDigits (c.toNat - 48) t).1 : Int), (grabDigits (c.toNat - 48) t).2) := by
  rw [parseIntTok.eq_def]
  split
  · rename_i cs heq
    obtain ⟨-, hcs⟩ := List.cons.inj heq
    subst hcs
    split
    · rename_i rest heq2
      exact absurd (List.cons.inj heq2).1 h0
    · rename_i c2 rest2 g1 heq2
      obtain ⟨hc2, hr2⟩ := List.cons.inj heq2
      subst hc2
      subst hr2
      rw [if_pos h19]
    · rename_i heq2
      cases heq2
  · rename_i rest heq
    exact absurd (List.cons.inj heq).1.symm (by decide)
  · rename_i c2 rest2 g1 g2 heq
    exact absurd (List.cons.inj heq).1.symm g1
  · rename_i heq
    cases heq

/-- The number codec round-trip at the token level. -/
theorem parseIntTok_intChars (i : Int) (rest : List Char) (h : noLeadDigit rest = true) :
    parseIntTok (intChars i ++ rest) = some (i, rest) := by
  have hfacts : ∀ n : Nat, 0 < n → ∃ c t, natDigitsF (n + 1) n = c :: t
      ∧ c ≠ '-' ∧ c ≠ '0' ∧ ('1' ≤ c ∧ c ≤ '9')
      ∧ grabDigits (c.toNat - 48) (t ++ rest) = (n, rest) := by
    intro n hn
    obtain ⟨c, t, heq, h49, h57, hgrab⟩ := grabDigits_eval rest h n hn
    have h1n : ('1' : Char).toNat = 49 := rfl
    have h9n : ('9' : Char).toNat = 57 := rfl
    refine ⟨c, t, heq, ?_, ?_, ⟨char_le_char.mpr (by omega), char_le_char.mpr (by omega)⟩,
      hgrab⟩
    · intro he
      subst he
      exact absurd h49 (by decide)
    · intro he
      subst he
      exact absurd h49 (by decide)
  by_cases hi : i < 0
  · have habs : 0 < i.natAbs := by omega
    obtain ⟨c, t, heq, hm, h0, h19, hgrab⟩ := hfacts i.natAbs habs
    have hich : intChars i ++ rest = '-' :: c :: (t ++ rest) := by
      rw [intChars, if_pos hi, natToDigits, heq]
      simp
    rw [hich, parseIntTok_negRun c (t ++ rest) h0 h19, hgrab]
    have : -((i.natAbs : Nat) : Int) = i := by omega
    rw [this]
  · by_cases h0 : i = 0
    · subst h0
      have hich : intChars 0 ++ rest = '0' :: rest := by rfl
      rw [hich]
      have hstop := grabDigits_stop 0 rest h
      rw [parseIntTok.eq_def]
      rfl
    · obtain ⟨c, t, heq, hm, hc0, h19, hgrab⟩ := hfacts i.toNat (by omega)
      have hich : intChars i ++ rest = c :: (t ++ rest) := by
        rw [intChars, if_neg hi, natToDigits, heq]
        simp
      rw [hich, parseIntTok_posRun c (t ++ rest) hm hc0 h19, hgrab]
      have : ((i.toNat : Nat) : Int) = i := by omega
      rw [this]

/-! ### String codec lemmas -/

theorem hexValue_hexDigitCh : ∀ d, d < 16 → hexValue (hexDigitCh d) = some d := by
  decide

/-- The scalar-value bounds every `Char` satisfies: below `0x110000` and
outside the surrogate range. -/
theorem char_valid_range (c : Char) :
    c.toNat < 0x110000 ∧ (c.toNat < 0xd800 ∨ 0xdfff < c.toNat) := by
  have h := c.valid
  simp only [UInt32.isValidChar, Nat.isValidChar] at h
  have he : c.toNat = c.val.toNat := rfl
  omega

set_option maxHeartbeats 1000000 in
theorem encodeChar_length_pos (c : Char) : 1 ≤ (encodeChar c).length := by
  rw [encodeChar]
  repeat' split
  all_goals simp [hex4]

theorem flatten_encode_length (s : List Char) :
    s.length ≤ ((s.map encodeChar).flatten).length := by
  induction s with
  | nil => simp
  | cons c t ih =>
    simp only [List.map_cons, List.flatten_cons, List.length_append, List.length_cons]
    have := encodeChar_length_pos c
    omega

theorem readHex4_hex4 (n : Nat) (hn : n < 0x10000) (rest : List Char) :
    readHex4 (hex4 n ++ rest) = some (n, rest) := by
  have hm16 : ∀ k : Nat, k % 16 < 16 := fun k => Nat.mod_lt _ (by omega)
  rw [hex4]
  simp only [List.cons_append, List.nil_append, readHex4,
    hexValue_hexDigitCh _ (hm16 _)]
  congr 1
  congr 1
  omega

/-- A raw `\uXXXX` escape outside the surrogate ranges decodes to `Char.ofNat n`. -/
theorem parseStrF_u (n : Nat) (hn : n < 0x10000) (hlo : ¬ (0xd800 ≤ n ∧ n < 0xdc00))
    (hhi : ¬ (0xdc00 ≤ n ∧ n < 0xe000)) (rest : List Char) (f : Nat) :
    parseStrF (f + 1) ('\\' :: 'u' :: (hex4 n ++ rest))
      = (parseStrF f rest).map (fun pr => (Char.ofNat n :: pr.1, pr.2)) := by
  simp only [parseStrF]
  rw [if_neg (by decide : ¬('\\' : Char) = '"'), if_pos trivial, if_pos trivial,
    readHex4_hex4 n hn rest]
  dsimp only
  rw [if_neg hlo, if_neg hhi]

/-- A high-surrogate escape followed by a low-surrogate escape decodes to the
combined scalar value. -/
theorem parseStrF_surrPair (n m : Nat) (hn1 : 0xd800 ≤ n) (hn2 : n < 0xdc00)
    (hm1 : 0xdc00 ≤ m) (hm2 : m < 0xe000) (rest : List Char) (f : Nat) :
    parseStrF (f + 1) ('\\' :: 'u' :: (hex4 n ++ ('\\' :: 'u' :: (hex4 m ++ rest))))
      = (parseStrF f rest).map (fun pr =>
          (Char.ofNat (0x10000 + (n - 0xd800) * 0x400 + (m - 0xdc00)) :: pr.1, pr.2)) := by
  simp only [parseStrF]
  rw [if_neg (by decide : ¬('\\' : Char) = '"'), if_pos trivial, if_pos trivial,
    readHex4_hex4 n (by omega) ('\\' :: 'u' :: (hex4 m ++ rest))]
  dsimp only
  rw [if_pos ⟨hn1, hn2⟩]
  rw [if_pos rfl, if_pos rfl, readHex4_hex4 m (by omega) rest]
  dsimp only
  rw [if_pos ⟨hm1, hm2⟩]

/-- Parsing one escaped character undoes the escaping, whatever follows. -/
theorem parseStrF_encodeChar (c : Char) (tail : List Char) (f : Nat) :
    parseStrF (f + 1) (encodeChar c ++ tail)
      = (parseStrF f tail).map (fun pr => (c :: pr.1, pr.2)) := by
  obtain ⟨hv1, hv2⟩ := char_valid_range c
  rw [encodeChar]
  by_cases h1 : c = '"'
  · subst h1; rw [if_pos rfl]; rfl
  rw [if_neg h1]
  by_cases h2 : c = '\\'
  · subst h2; rw [if_pos rfl]; rfl
  rw [if_neg h2]
  by_cases h3 : c = '\n'
  · subst h3; rw [if_pos rfl]; rfl
  rw [if_neg h3]
  by_cases h4 : c = '\t'
  · subst h4; rw [if_pos rfl]; rfl
  rw [if_neg h4]
  by_cases h5 : c = '\r'
  · subst h5; rw [if_pos rfl]; rfl
  rw [if_neg h5]
  by_cases h6 : c = '\x08'
  · subst h6; rw [if_pos rfl]; rfl
  rw [if_neg h6]
  by_cases h7 : c = '\x0c'
  · subst h7; rw [if_pos rfl]; rfl
  rw [if_neg h7]
  by_cases h8 : c.toNat < 0x20
  · rw [if_pos h8, List.cons_append, List.cons_append,
      parseStrF_u c.toNat (by omega) (by omega) (by omega) tail f, Char.ofNat_toNat]
  rw [if_neg h8]
  by_cases h9 : c.toNat ≤ 0x7e
  · rw [if_pos h9, List.cons_append, List.nil_append]
    simp only [parseStrF]
    rw [if_neg h1, if_neg h2, if_neg h8]
  rw [if_neg h9]
  by_cases h10 : c.toNat < 0x10000
  · rw [if_pos h10, List.cons_append, List.cons_append,
      parseStrF_u c.toNat (by omega) (by omega) (by omega) tail f, Char.ofNat_toNat]
  · rw [if_neg h10, List.append_assoc]
    simp only [List.cons_append]
    rw [parseStrF_surrPair (0xd800 + (c.toNat - 0x10000) / 0x400)
        (0xdc00 + (c.toNat - 0x10000) % 0x400)
        (by omega) (by omega) (by omega) (by omega) tail f]
    have hcomb : 0x10000 + (0xd800 + (c.toNat - 0x10000) / 0x400 - 0xd800) * 0x400
        + (0xdc00 + (c.toNat - 0x10000) % 0x400 - 0xdc00) = c.toNat := by omega
    rw [hcomb, Char.ofNat_toNat]

/-- The string codec round-trip after the opening quote. -/
theorem parseStrF_quoted : ∀ (s rest : List Char) (f : Nat), s.length < f →
    parseStrF f ((s.map encodeChar).flatten ++ '"' :: rest) = some (s, rest) := by
  intro s
  induction s with
  | nil =>
    intro rest f hf
    cases f with
    | zero => omega
    | succ f => rfl
  | cons c t ih =>
    intro rest f hf
    cases f with
    | zero => omega
    | succ f =>
      rw [List.map_cons, List.flatten_cons, List.append_assoc, parseStrF_encodeChar,
        ih rest f (by simp only [List.length_cons] at hf; omega)]
      rfl

/-! ### Whitespace and dispatch lemmas for the value parser -/

theorem skipWs_cons_of_ws {c : Char} (h : isJsonWs c = true) (cs : List Char) :
    skipWs (c :: cs) = skipWs cs := by
  simp [skipWs, List.dropWhile_cons, h]

theorem skipWs_cons_of_not {c : Char} (h : isJsonWs c = false) (cs : List Char) :
    skipWs (c :: cs) = c :: cs := by
  simp [skipWs, List.dropWhile_cons, h]

theorem skipWs_replicate (n : Nat) (cs : List Char) :
    skipWs (List.replicate n ' ' ++ cs) = skipWs cs := by
  induction n with
  | zero => rfl
  | succ m ih =>
    rw [List.replicate_succ, List.cons_append, skipWs_cons_of_ws (by decide)]
    exact ih

theorem skipWs_indent (l : Nat) (cs : List Char) :
    skipWs (indentChars l ++ cs) = skipWs cs := skipWs_replicate (2 * l) cs

theorem skipWs_idem (cs : List Char) : skipWs (skipWs cs) = skipWs cs := by
  induction cs with
  | nil => rfl
  | cons c t ih =>
    cases h : isJsonWs c with
    | true => rw [skipWs_cons_of_ws h]; exact ih
    | false => rw [skipWs_cons_of_not h, skipWs_cons_of_not h]

theorem parseValF_skipWs (f : Nat) (cs : List Char) :
    parseValF (f + 1) cs = parseValF (f + 1) (skipWs cs) := by
  simp only [parseValF]
  rw [skipWs_idem]

theorem isJsonWs_cases {c : Char} (h : isJsonWs c = true) :
    c.toNat = 32 ∨ c.toNat = 9 ∨ c.toNat = 10 ∨ c.toNat = 13 := by
  simp only [isJsonWs, Bool.or_eq_true, decide_eq_true_eq] at h
  rcases h with ((h | h) | h) | h <;> subst h <;> decide

theorem not_ws_of_toNat {c : Char} (h32 : c.toNat ≠ 32) (h9 : c.toNat ≠ 9)
    (h10 : c.toNat ≠ 10) (h13 : c.toNat ≠ 13) : isJsonWs c = false := by
  cases h : isJsonWs c
  · rfl
  · rcases isJsonWs_cases h with hh | hh | hh | hh <;> omega

theorem char_ne_of_toNat {c d : Char} (h : c.toNat ≠ d.toNat) : c ≠ d :=
  fun he => h (congrArg Char.toNat he)

theorem isJsonWs_not_digit {c : Char} (h : isJsonWs c = true) : isDigitCh c = false := by
  cases hd : isDigitCh c
  · rfl
  · obtain ⟨h1, h2⟩ := isDigitCh_iff.mp hd
    rcases isJsonWs_cases h with hh | hh | hh | hh <;> omega

theorem noLeadDigit_of_skipWs {close rest : List Char} {c : Char}
    (h : skipWs close = c :: rest) (hc : isDigitCh c = false) :
    noLeadDigit close = true := by
  cases close with
  | nil => simp [skipWs] at h
  | cons d t =>
    cases hd : isJsonWs d
    · rw [skipWs_cons_of_not hd] at h
      obtain ⟨hdc, -⟩ := List.cons.inj h
      subst hdc
      simp [noLeadDigit, hc]
    · simp [noLeadDigit, isJsonWs_not_digit hd]

theorem leadsWith_false {p c : Char} (ps cs : List Char) (h : p ≠ c) :
    leadsWith (p :: ps) (c :: cs) = false := by
  simp [leadsWith, h]

/-! ### Head and length facts about the serializer -/

theorem intChars_head (i : Int) : ∃ c t, intChars i = c :: t
    ∧ (c.toNat = 45 ∨ (48 ≤ c.toNat ∧ c.toNat ≤ 57)) := by
  rw [intChars]
  by_cases hi : i < 0
  · rw [if_pos hi]
    exact ⟨'-', natToDigits i.natAbs, rfl, Or.inl rfl⟩
  · rw [if_neg hi, natToDigits]
    obtain ⟨c, t, heq, h48, h57, -⟩ := natDigitsF_head (i.toNat + 1) i.toNat (by omega)
    exact ⟨c, t, heq, Or.inr ⟨h48, h57⟩⟩

theorem serializeV_head (lvl : Nat) (v : JValue) : ∃ c t, serializeV lvl v = c :: t
    ∧ isJsonWs c = false ∧ c ≠ ']' := by
  cases v with
  | null => exact ⟨'n', ['u', 'l', 'l'], by simp [serializeV], by decide, by decide⟩
  | bool b =>
    cases b with
    | true => exact ⟨'t', ['r', 'u', 'e'], by simp [serializeV], by decide, by decide⟩
    | false => exact ⟨'f', ['a', 'l', 's', 'e'], by simp [serializeV], by decide, by decide⟩
  | num i =>
    obtain ⟨c, t, heq, hc⟩ := intChars_head i
    have hb : 45 ≤ c.toNat ∧ c.toNat ≤ 57 := by rcases hc with h | ⟨h1, h2⟩ <;> omega
    refine ⟨c, t, by simp [serializeV, heq], ?_, ?_⟩
    · exact not_ws_of_toNat (by omega) (by omega) (by omega) (by omega)
    · exact char_ne_of_toNat (by have hn : (']' : Char).toNat = 93 := rfl; omega)
  | str s =>
    exact ⟨'"', (s.map encodeChar).flatten ++ ['"'], by simp [serializeV, quoteStr],
      by decide, by decide⟩
  | arr l =>
    cases l with
    | nil => exact ⟨'[', [']'], by simp [serializeV], by decide, by decide⟩
    | cons x xs =>
      exact ⟨'[', '\n' :: (serializeItems (lvl + 1) (x :: xs)
          ++ '\n' :: (indentChars lvl ++ [']'])),
        by simp [serializeV], by decide, by decide⟩
  | obj l =>
    cases l with
    | nil => exact ⟨'\x7b', ['\x7d'], by simp [serializeV], by decide, by decide⟩
    | cons kv ms =>
      exact ⟨'\x7b', '\n' :: (serializeMembers (lvl + 1) (kv :: ms)
          ++ '\n' :: (indentChars lvl ++ ['\x7d'])),
        by simp [serializeV], by decide, by decide⟩

theorem serializeV_length_pos (lvl : Nat) (v : JValue) : 1 ≤ (serializeV lvl v).length := by
  obtain ⟨c, t, heq, -, -⟩ := serializeV_head lvl v
  simp [heq]

theorem serializeItems_cons_cons (lvl : Nat) (v x : JValue) (xs : List JValue) :
    serializeItems lvl (v :: x :: xs)
      = indentChars lvl ++ serializeV lvl v ++ ',' :: '\n' :: serializeItems lvl (x :: xs) := by
  simp [serializeItems]

theorem serializeItems_single (lvl : Nat) (v : JValue) :
    serializeItems lvl [v] = indentChars lvl ++ serializeV lvl v := by
  simp [serializeItems]

theorem serializeMembers_cons_cons (lvl : Nat) (kv m2 : List Char × JValue)
    (ms : List (List Char × JValue)) :
    serializeMembers lvl (kv :: m2 :: ms)
      = indentChars lvl ++ quoteStr kv.1 ++ ':' :: ' ' :: serializeV lvl kv.2
          ++ ',' :: '\n' :: serializeMembers lvl (m2 :: ms) := by
  simp [serializeMembers]

theorem serializeMembers_single (lvl : Nat) (kv : List Char × JValue) :
    serializeMembers lvl [kv]
      = indentChars lvl ++ quoteStr kv.1 ++ ':' :: ' ' :: serializeV lvl kv.2 := by
  simp [serializeMembers]

theorem serializeItems_len_head (lvl : Nat) (v : JValue) (vs : List JValue) :
    (serializeV lvl v).length ≤ (serializeItems lvl (v :: vs)).length := by
  cases vs with
  | nil => simp [serializeItems_single]
  | cons x xs =>
    simp only [serializeItems_cons_cons, List.length_append, List.length_cons]
    omega

theorem serializeItems_len_tail (lvl : Nat) (v x : JValue) (xs : List JValue) :
    (serializeItems lvl (x :: xs)).length + 2 ≤ (serializeItems lvl (v :: x :: xs)).length := by
  have h := serializeV_length_pos lvl v
  simp only [serializeItems_cons_cons, List.length_append, List.length_cons]
  omega

theorem serializeItems_count (lvl : Nat) (v : JValue) (vs : List JValue) :
    vs.length + 1 ≤ (serializeItems lvl (v :: vs)).length := by
  induction vs generalizing v with
  | nil =>
    have h := serializeV_length_pos lvl v
    simp only [serializeItems_single, List.length_append, List.length_nil]
    omega
  | cons x xs ih =>
    have h1 := ih x
    have h2 := serializeItems_len_tail lvl v x xs
    simp only [List.length_cons]
    omega

theorem serializeMembers_len_head (lvl : Nat) (kv : List Char × JValue)
    (ms : List (List Char × JValue)) :
    (serializeV lvl kv.2).length ≤ (serializeMembers lvl (kv :: ms)).length := by
  cases ms with
  | nil =>
    simp only [serializeMembers_single, List.length_append, List.length_cons]
    omega
  | cons m2 ms2 =>
    simp only [serializeMembers_cons_cons, List.length_append, List.length_cons]
    omega

theorem serializeMembers_len_tail (lvl : Nat) (kv m2 : List Char × JValue)
    (ms : List (List Char × JValue)) :
    (serializeMembers lvl (m2 :: ms)).length + 2
      ≤ (serializeMembers lvl (kv :: m2 :: ms)).length := by
  simp only [serializeMembers_cons_cons, List.length_append, List.length_cons]
  omega

theorem serializeMembers_count (lvl : Nat) (kv : List Char × JValue)
    (ms : List (List Char × JValue)) :
    ms.length + 1 ≤ (serializeMembers lvl (kv :: ms)).length := by
  induction ms generalizing kv with
  | nil =>
    simp only [serializeMembers_single, List.length_append, List.length_cons,
      List.length_nil, quoteStr]
    omega
  | cons m2 ms2 ih =>
    have h1 := ih m2
    have h2 := serializeMembers_len_tail lvl kv m2 ms2
    simp only [List.length_cons]
    omega

theorem skipWs_items (lvl : Nat) (v : JValue) (vs : List JValue) (X : List Char) :
    ∃ c r, skipWs (serializeItems lvl (v :: vs) ++ X) = c :: r
      ∧ isJsonWs c = false ∧ c ≠ ']' := by
  obtain ⟨c, t, heq, hws, hne⟩ := serializeV_head lvl v
  cases vs with
  | nil =>
    refine ⟨c, t ++ X, ?_, hws, hne⟩
    rw [serializeItems_single, List.append_assoc, skipWs_indent, heq, List.cons_append,
      skipWs_cons_of_not hws]
  | cons x xs =>
    refine ⟨c, t ++ (',' :: '\n' :: (serializeItems lvl (x :: xs) ++ X)), ?_, hws, hne⟩
    rw [serializeItems_cons_cons]
    simp only [List.append_assoc, List.cons_append]
    rw [skipWs_indent, heq, List.cons_append, skipWs_cons_of_not hws]

theorem skipWs_members (lvl : Nat) (kv : List Char × JValue)
    (ms : List (List Char × JValue)) (X : List Char) :
    ∃ r, skipWs (serializeMembers lvl (kv :: ms) ++ X) = '"' :: r := by
  cases ms with
  | nil =>
    simp only [serializeMembers_single, quoteStr, List.append_assoc, List.cons_append,
      skipWs_indent, skipWs_cons_of_not (show isJsonWs '"' = false by decide)]
    exact ⟨_, rfl⟩
  | cons m2 ms2 =>
    simp only [serializeMembers_cons_cons, quoteStr, List.append_assoc, List.cons_append,
      skipWs_indent, skipWs_cons_of_not (show isJsonWs '"' = false by decide)]
    exact ⟨_, rfl⟩

/-! ### Leaf cases of the value parser on serializer output -/

theorem parseValF_null (f : Nat) (rest : List Char) :
    parseValF (f + 1) ('n' :: 'u' :: 'l' :: 'l' :: rest) = some (.null, rest) := by
  simp only [parseValF]
  rw [skipWs_cons_of_not (by decide)]
  dsimp only
  rw [if_neg (by decide), if_neg (by decide), if_neg (by decide),
    if_pos (by simp [leadsWith])]
  rfl

theorem parseValF_true (f : Nat) (rest : List Char) :
    parseValF (f + 1) ('t' :: 'r' :: 'u' :: 'e' :: rest) = some (.bool true, rest) := by
  simp only [parseValF]
  rw [skipWs_cons_of_not (by decide)]
  dsimp only
  rw [if_neg (by decide), if_neg (by decide), if_neg (by decide),
    if_neg (by simp [leadsWith_false _ _ (by decide : ('n' : Char) ≠ 't')]),
    if_pos (by simp [leadsWith])]
  rfl

theorem parseValF_false (f : Nat) (rest : List Char) :
    parseValF (f + 1) ('f' :: 'a' :: 'l' :: 's' :: 'e' :: rest) = some (.bool false, rest) := by
  simp only [parseValF]
  rw [skipWs_cons_of_not (by decide)]
  dsimp only
  rw [if_neg (by decide), if_neg (by decide), if_neg (by decide),
    if_neg (by simp [leadsWith_false _ _ (by decide : ('n' : Char) ≠ 'f')]),
    if_neg (by simp [leadsWith_false _ _ (by decide : ('t' : Char) ≠ 'f')]),
    if_pos (by simp [leadsWith])]
  rfl

theorem parseValF_num (i : Int) (rest : List Char) (f : Nat)
    (hrest : noLeadDigit rest = true) :
    parseValF (f + 1) (intChars i ++ rest) = some (.num i, rest) := by
  obtain ⟨c, t, heq, hc⟩ := intChars_head i
  have hb : 45 ≤ c.toNat ∧ c.toNat ≤ 57 := by rcases hc with h | ⟨h1, h2⟩ <;> omega
  obtain ⟨hlo, hhi⟩ := hb
  have hws : isJsonWs c = false := not_ws_of_toNat (by omega) (by omega) (by omega) (by omega)
  rw [heq, List.cons_append]
  simp only [parseValF]
  rw [skipWs_cons_of_not hws]
  dsimp only
  rw [if_neg (char_ne_of_toNat (by have h1 : ('\x7b' : Char).toNat = 123 := rfl; omega)),
    if_neg (char_ne_of_toNat (by have h1 : ('[' : Char).toNat = 91 := rfl; omega)),
    if_neg (char_ne_of_toNat (by have h1 : ('"' : Char).toNat = 34 := rfl; omega))]
  have hnull : leadsWith "null".data (c :: (t ++ rest)) = false :=
    leadsWith_false _ _ (Ne.symm (char_ne_of_toNat
      (by have h1 : ('n' : Char).toNat = 110 := rfl; omega)))
  have htrue : leadsWith "true".data (c :: (t ++ rest)) = false :=
    leadsWith_false _ _ (Ne.symm (char_ne_of_toNat
      (by have h1 : ('t' : Char).toNat = 116 := rfl; omega)))
  have hfalse : leadsWith "false".data (c :: (t ++ rest)) = false :=
    leadsWith_false _ _ (Ne.symm (char_ne_of_toNat
      (by have h1 : ('f' : Char).toNat = 102 := rfl; omega)))
  rw [if_neg (by simp [hnull]), if_neg (by simp [htrue]), if_neg (by simp [hfalse]),
    ← List.cons_append, ← heq, parseIntTok_intChars i rest hrest]

theorem parseValF_str (s : List Char) (rest : List Char) (f : Nat) :
    parseValF (f + 1) (quoteStr s ++ rest) = some (.str s, rest) := by
  simp only [quoteStr, List.cons_append, List.append_assoc, List.singleton_append,
    List.nil_append]
  simp only [parseValF]
  rw [skipWs_cons_of_not (by decide)]
  dsimp only
  rw [if_neg (by decide), if_neg (by decide), if_pos rfl,
    parseStrF_quoted s rest _ (by have := flatten_encode_length s
                                  simp only [List.length_append, List.length_cons]
                                  omega)]

theorem parseValF_arrNil (f : Nat) (rest : List Char) :
    parseValF (f + 1) ('[' :: ']' :: rest) = some (.arr [], rest) := by
  simp only [parseValF]
  rw [skipWs_cons_of_not (by decide)]
  dsimp only
  rw [if_neg (by decide), if_pos rfl, skipWs_cons_of_not (by decide)]
  dsimp only
  rw [if_pos rfl]

theorem parseValF_objNil (f : Nat) (rest : List Char) :
    parseValF (f + 1) ('\x7b' :: '\x7d' :: rest) = some (.obj [], rest) := by
  simp only [parseValF]
  rw [skipWs_cons_of_not (by decide)]
  dsimp only
  rw [if_pos rfl, skipWs_cons_of_not (by decide)]
  dsimp only
  rw [if_pos rfl]

/-! ### The `json.dumps` / `json.loads` round-trip -/

mutual

/-- Parsing the serializer's output at any level recovers the value. -/
theorem rt_val : ∀ (v : JValue) (lvl fv : Nat) (rest : List Char),
    (serializeV lvl v).length < fv → noLeadDigit rest = true →
    parseValF fv (serializeV lvl v ++ rest) = some (v, rest)
  | .null, lvl, fv, rest, hf, _ => by
    cases fv with
    | zero => exact absurd hf (Nat.not_lt_zero _)
    | succ f =>
      rw [show serializeV lvl JValue.null ++ rest = 'n' :: 'u' :: 'l' :: 'l' :: rest from
        by simp [serializeV]]
      exact parseValF_null f rest
  | .bool true, lvl, fv, rest, hf, _ => by
    cases fv with
    | zero => exact absurd hf (Nat.not_lt_zero _)
    | succ f =>
      rw [show serializeV lvl (JValue.bool true) ++ rest = 't' :: 'r' :: 'u' :: 'e' :: rest from
        by simp [serializeV]]
      exact parseValF_true f rest
  | .bool false, lvl, fv, rest, hf, _ => by
    cases fv with
    | zero => exact absurd hf (Nat.not_lt_zero _)
    | succ f =>
      rw [show serializeV lvl (JValue.bool false) ++ rest
          = 'f' :: 'a' :: 'l' :: 's' :: 'e' :: rest from by simp [serializeV]]
      exact parseValF_false f rest
  | .num i, lvl, fv, rest, hf, hrest => by
    cases fv with
    | zero => exact absurd hf (Nat.not_lt_zero _)
    | succ f =>
      rw [show serializeV lvl (JValue.num i) = intChars i from by simp [serializeV]]
      exact parseValF_num i rest f hrest
  | .str s, lvl, fv, rest, hf, _ => by
    cases fv with
    | zero => exact absurd hf (Nat.not_lt_zero _)
    | succ f =>
      rw [show serializeV lvl (JValue.str s) = quoteStr s from by simp [serializeV]]
      exact parseValF_str s rest f
  | .arr [], lvl, fv, rest, hf, _ => by
    cases fv with
    | zero => exact absurd hf (Nat.not_lt_zero _)
    | succ f =>
      rw [show serializeV lvl (JValue.arr []) ++ rest = '[' :: ']' :: rest from
        by simp [serializeV]]
      exact parseValF_arrNil f rest
  | .obj [], lvl, fv, rest, hf, _ => by
    cases fv with
    | zero => exact absurd hf (Nat.not_lt_zero _)
    | succ f =>
      rw [show serializeV lvl (JValue.obj []) ++ rest = '\x7b' :: '\x7d' :: rest from
        by simp [serializeV]]
      exact parseValF_objNil f rest
  | .arr (v :: vs), lvl, fv, rest, hf, _ => by
    cases fv with
    | zero => exact absurd hf (Nat.not_lt_zero _)
    | succ f =>
      have hsv : serializeV lvl (JValue.arr (v :: vs))
          = '[' :: '\n' :: (serializeItems (lvl + 1) (v :: vs)
              ++ '\n' :: (indentChars lvl ++ [']'])) := by simp [serializeV]
      have hge : (serializeItems (lvl + 1) (v :: vs)).length + 4
          ≤ (serializeV lvl (JValue.arr (v :: vs))).length := by
        rw [hsv]
        simp only [List.length_cons, List.length_append]
        omega
      have hcount := serializeItems_count (lvl + 1) v vs
      have harr : serializeV lvl (JValue.arr (v :: vs)) ++ rest
          = '[' :: ('\n' :: (serializeItems (lvl + 1) (v :: vs)
              ++ ('\n' :: (indentChars lvl ++ (']' :: rest))))) := by
        rw [hsv]
        simp only [List.append_assoc, List.cons_append, List.singleton_append,
          List.nil_append]
      rw [harr]
      simp only [parseValF]
      rw [skipWs_cons_of_not (by decide)]
      dsimp only
      rw [if_neg (by decide), if_pos rfl]
      obtain ⟨c2, r2, hsk, hws2, hne2⟩ := skipWs_items (lvl + 1) v vs
        ('\n' :: (indentChars lvl ++ (']' :: rest)))
      rw [skipWs_cons_of_ws (by decide), hsk]
      dsimp only
      rw [if_neg hne2]
      have hclose : skipWs ('\n' :: (indentChars lvl ++ (']' :: rest))) = ']' :: rest := by
        rw [skipWs_cons_of_ws (by decide), skipWs_indent, skipWs_cons_of_not (by decide)]
      rw [rt_elems v vs (lvl + 1) f f ('\n' :: (indentChars lvl ++ (']' :: rest))) rest
        hclose (by omega) (by omega)]
  | .obj (kv :: ms), lvl, fv, rest, hf, _ => by
    cases fv with
    | zero => exact absurd hf (Nat.not_lt_zero _)
    | succ f =>
      have hsv : serializeV lvl (JValue.obj (kv :: ms))
          = '\x7b' :: '\n' :: (serializeMembers (lvl + 1) (kv :: ms)
              ++ '\n' :: (indentChars lvl ++ ['\x7d'])) := by simp [serializeV]
      have hge : (serializeMembers (lvl + 1) (kv :: ms)).length + 4
          ≤ (serializeV lvl (JValue.obj (kv :: ms))).length := by
        rw [hsv]
        simp only [List.length_cons, List.length_append]
        omega
      have hcount := serializeMembers_count (lvl + 1) kv ms
      have hobj : serializeV lvl (JValue.obj (kv :: ms)) ++ rest
          = '\x7b' :: ('\n' :: (serializeMembers (lvl + 1) (kv :: ms)
              ++ ('\n' :: (indentChars lvl ++ ('\x7d' :: rest))))) := by
        rw [hsv]
        simp only [List.append_assoc, List.cons_append, List.singleton_append,
          List.nil_append]
      rw [hobj]
      simp only [parseValF]
      rw [skipWs_cons_of_not (by decide)]
      dsimp only
      rw [if_pos rfl]
      obtain ⟨r2, hsk⟩ := skipWs_members (lvl + 1) kv ms
        ('\n' :: (indentChars lvl ++ ('\x7d' :: rest)))
      rw [skipWs_cons_of_ws (by decide), hsk]
      dsimp only
      rw [if_neg (by decide)]
      have hclose : skipWs ('\n' :: (indentChars lvl ++ ('\x7d' :: rest)))
          = '\x7d' :: rest := by
        rw [skipWs_cons_of_ws (by decide), skipWs_indent, skipWs_cons_of_not (by decide)]
      rw [rt_members kv ms (lvl + 1) f f ('\n' :: (indentChars lvl ++ ('\x7d' :: rest))) rest
        hclose (by omega) (by omega)]
termination_by v _ _ _ _ _ => sizeOf v

/-- Parsing a rendered element list recovers the elements. -/
theorem rt_elems : ∀ (v : JValue) (vs : List JValue) (lvl fe fv : Nat)
    (close rest : List Char),
    skipWs close = ']' :: rest →
    vs.length < fe →
    (serializeItems lvl (v :: vs)).length < fv →
    parseElemsF (parseValF fv) fe ('\n' :: (serializeItems lvl (v :: vs) ++ close))
      = some (v :: vs, rest)
  | v, [], lvl, fe, fv, close, rest, hclose, hfe, hfv => by
    cases fe with
    | zero => exact absurd hfe (Nat.not_lt_zero _)
    | succ fe1 =>
      cases fv with
      | zero => exact absurd hfv (Nat.not_lt_zero _)
      | succ fv1 =>
        have hlenv : (serializeV lvl v).length < fv1 + 1 :=
          Nat.lt_of_le_of_lt (serializeItems_len_head lvl v []) hfv
        have hv : parseValF (fv1 + 1) ('\n' :: (serializeItems lvl [v] ++ close))
            = some (v, close) := by
          rw [parseValF_skipWs, skipWs_cons_of_ws (by decide), serializeItems_single,
            List.append_assoc, skipWs_indent]
          obtain ⟨c, t, heq, hws, -⟩ := serializeV_head lvl v
          rw [heq, List.cons_append, skipWs_cons_of_not hws, ← List.cons_append, ← heq]
          exact rt_val v lvl (fv1 + 1) close hlenv
            (noLeadDigit_of_skipWs hclose (by decide))
        simp only [parseElemsF]
        rw [hv]
        dsimp only
        rw [hclose]
        rfl
  | v, x :: xs, lvl, fe, fv, close, rest, hclose, hfe, hfv => by
    cases fe with
    | zero => exact absurd hfe (Nat.not_lt_zero _)
    | succ fe1 =>
      cases fv with
      | zero => exact absurd hfv (Nat.not_lt_zero _)
      | succ fv1 =>
        have hlenv : (serializeV lvl v).length < fv1 + 1 :=
          Nat.lt_of_le_of_lt (serializeItems_len_head lvl v (x :: xs)) hfv
        have hfv2 : (serializeItems lvl (x :: xs)).length < fv1 + 1 := by
          have := serializeItems_len_tail lvl v x xs
          omega
        have hfe2 : xs.length < fe1 := by
          simp only [List.length_cons] at hfe
          omega
        have hv : parseValF (fv1 + 1) ('\n' :: (serializeItems lvl (v :: x :: xs) ++ close))
            = some (v, ',' :: '\n' :: (serializeItems lvl (x :: xs) ++ close)) := by
          rw [parseValF_skipWs, skipWs_cons_of_ws (by decide), serializeItems_cons_cons]
          simp only [List.append_assoc, List.cons_append]
          rw [skipWs_indent]
          obtain ⟨c, t, heq, hws, -⟩ := serializeV_head lvl v
          rw [heq, List.cons_append, skipWs_cons_of_not hws, ← List.cons_append, ← heq]
          exact rt_val v lvl (fv1 + 1)
            (',' :: '\n' :: (serializeItems lvl (x :: xs) ++ close)) hlenv rfl
        simp only [parseElemsF]
        rw [hv]
        dsimp only
        rw [skipWs_cons_of_not (by decide)]
        simp only [rt_elems x xs lvl fe1 (fv1 + 1) close rest hclose hfe2 hfv2]
termination_by v vs _ _ _ _ _ _ _ _ => sizeOf v + sizeOf vs

/-- Parsing a rendered member list recovers the key-value pairs. -/
theorem rt_members : ∀ (kv : List Char × JValue) (ms : List (List Char × JValue))
    (lvl fm fv : Nat) (close rest : List Char),
    skipWs close = '\x7d' :: rest →
    ms.length < fm →
    (serializeMembers lvl (kv :: ms)).length < fv →
    parseMembersF (parseValF fv) fm ('\n' :: (serializeMembers lvl (kv :: ms) ++ close))
      = some (kv :: ms, rest)
  | (k, v), [], lvl, fm, fv, close, rest, hclose, hfm, hfv => by
    cases fm with
    | zero => exact absurd hfm (Nat.not_lt_zero _)
    | succ fm1 =>
      cases fv with
      | zero => exact absurd hfv (Nat.not_lt_zero _)
      | succ fv1 =>
        have hlenv : (serializeV lvl v).length < fv1 + 1 :=
          Nat.lt_of_le_of_lt (serializeMembers_len_head lvl (k, v) []) hfv
        simp only [parseMembersF]
        rw [skipWs_cons_of_ws (by decide), serializeMembers_single]
        simp only [quoteStr, List.append_assoc, List.cons_append, List.nil_append,
          List.singleton_append]
        rw [skipWs_indent, skipWs_cons_of_not (by decide)]
        simp only []
        rw [parseStrF_quoted k (':' :: ' ' :: (serializeV lvl v ++ close)) _
          (by have := flatten_encode_length k
              simp only [List.length_append, List.length_cons]
              omega)]
        dsimp only
        rw [skipWs_cons_of_not (by decide)]
        simp only []
        have hv : parseValF (fv1 + 1) (' ' :: (serializeV lvl v ++ close))
            = some (v, close) := by
          rw [parseValF_skipWs, skipWs_cons_of_ws (by decide)]
          obtain ⟨c, t, heq, hws, -⟩ := serializeV_head lvl v
          rw [heq, List.cons_append, skipWs_cons_of_not hws, ← List.cons_append, ← heq]
          exact rt_val v lvl (fv1 + 1) close hlenv
            (noLeadDigit_of_skipWs hclose (by decide))
        rw [hv]
        dsimp only
        rw [hclose]
        rfl
  | (k, v), m2 :: ms2, lvl, fm, fv, close, rest, hclose, hfm, hfv => by
    cases fm with
    | zero => exact absurd hfm (Nat.not_lt_zero _)
    | succ fm1 =>
      cases fv with
      | zero => exact absurd hfv (Nat.not_lt_zero _)
      | succ fv1 =>
        have hlenv : (serializeV lvl v).length < fv1 + 1 :=
          Nat.lt_of_le_of_lt (serializeMembers_len_head lvl (k, v) (m2 :: ms2)) hfv
        have hfv2 : (serializeMembers lvl (m2 :: ms2)).length < fv1 + 1 := by
          have := serializeMembers_len_tail lvl (k, v) m2 ms2
          omega
        have hfm2 : ms2.length < fm1 := by
          simp only [List.length_cons] at hfm
          omega
        simp only [parseMembersF]
        rw [skipWs_cons_of_ws (by decide), serializeMembers_cons_cons]
        simp only [quoteStr, List.append_assoc, List.cons_append, List.nil_append,
          List.singleton_append]
        rw [skipWs_indent, skipWs_cons_of_not (by decide)]
        simp only []
        rw [parseStrF_quoted k
          (':' :: ' ' :: (serializeV lvl v
            ++ ',' :: '\n' :: (serializeMembers lvl (m2 :: ms2) ++ close))) _
          (by have := flatten_encode_length k
              simp only [List.length_append, List.length_cons]
              omega)]
        dsimp only
        rw [skipWs_cons_of_not (by decide)]
        simp only []
        have hv : parseValF (fv1 + 1) (' ' :: (serializeV lvl v
            ++ ',' :: '\n' :: (serializeMembers lvl (m2 :: ms2) ++ close)))
            = some (v, ',' :: '\n' :: (serializeMembers lvl (m2 :: ms2) ++ close)) := by
          rw [parseValF_skipWs, skipWs_cons_of_ws (by decide)]
          obtain ⟨c, t, heq, hws, -⟩ := serializeV_head lvl v
          rw [heq, List.cons_append, skipWs_cons_of_not hws, ← List.cons_append, ← heq]
          exact rt_val v lvl (fv1 + 1)
            (',' :: '\n' :: (serializeMembers lvl (m2 :: ms2) ++ close)) hlenv rfl
        rw [hv]
        dsimp only
        rw [skipWs_cons_of_not (by decide)]
        simp only [rt_members m2 ms2 lvl fm1 (fv1 + 1) close rest hclose hfm2 hfv2]
termination_by kv ms _ _ _ _ _ _ _ _ => sizeOf kv + sizeOf ms

end

/-- The whole-text round-trip: `json.loads` inverts `json.dumps`. -/
theorem parseJson_serialize (v : JValue) : parseJson (serialize v) = some v := by
  have h := rt_val v 0 ((serializeV 0 v).length + 1) [] (by omega) rfl
  rw [List.append_nil] at h
  rw [parseJson, serialize, h]
  rfl

/-- Dropping a fragment that does not parse as an object leaves `parsedObjs`
unchanged. -/
theorem parsedObjs_cons_skip (fr : List Char) (t : List (List Char))
    (hg : (fun frag => match parseJson frag with
      | some (.obj ms) => some ms
      | _ => none) fr = (none : Option (List (List Char × JValue)))) :
    parsedObjs (fr :: t) = parsedObjs t := by
  simp only [parsedObjs]
  exact List.filterMap_cons_none hg

/-- A fragment that parses as an object contributes its members to
`parsedObjs`. -/
theorem parsedObjs_cons_obj (fr : List Char) (t : List (List Char))
    (ms : List (List Char × JValue))
    (hg : (fun frag => match parseJson frag with
      | some (.obj ms2) => some ms2
      | _ => none) fr = some ms) :
    parsedObjs (fr :: t) = ms :: parsedObjs t := by
  simp only [parsedObjs]
  exact List.filterMap_cons_some hg

/-- The merge accumulator is the fold of `dict.update` over the fragments
that parse as objects. -/
theorem mergedDict_eq_fold (frags : List (List Char)) :
    mergedDict frags = (parsedObjs frags).foldl dictUpdate [] := by
  rw [mergedDict]
  have haux : ∀ (l : List (List Char)) (acc : List (List Char × JValue)),
      l.foldl (fun acc frag =>
        match parseJson frag with
        | some (.obj ms) => dictUpdate acc ms
        | _ => acc) acc
      = (parsedObjs l).foldl dictUpdate acc := by
    intro l
    induction l with
    | nil => intro acc; rfl
    | cons fr t ih =>
      intro acc
      rw [List.foldl_cons]
      try dsimp only
      cases hp : parseJson fr with
      | none =>
        try dsimp only
        rw [parsedObjs_cons_skip fr t (by dsimp only; rw [hp])]
        exact ih acc
      | some w =>
        cases w
        case obj ms =>
          try dsimp only
          rw [parsedObjs_cons_obj fr t ms (by dsimp only; rw [hp]), List.foldl_cons]
          exact ih (dictUpdate acc ms)
        all_goals
          try dsimp only
          rw [parsedObjs_cons_skip fr t (by dsimp only; rw [hp])]
          exact ih acc
  exact haux frags []

/-- Looking up after one `dict.update`: the updating pairs win (last
occurrence first), otherwise the old dict answers. -/
theorem lookupA_dictUpdate (ms : List (List Char × JValue)) :
    ∀ (acc : List (List Char × JValue)) (k : List Char),
    lookupA (dictUpdate acc ms) k = (lastVal ms k).or (lookupA acc k) := by
  induction ms with
  | nil => intro acc k; simp [dictUpdate, lastVal, Option.none_or]
  | cons kv ms ih =>
    intro acc k
    have hstep : dictUpdate acc (kv :: ms) = dictUpdate (updAssoc acc kv.1 kv.2) ms := rfl
    rw [hstep, ih, lookupA_updAssoc]
    have hrev : (kv :: ms).reverse = ms.reverse ++ [kv] := by simp
    have hR : lastVal (kv :: ms) k
        = ((ms.reverse.find? (fun p => p.1 = k)).or
            (List.find? (fun p => p.1 = k) [kv])).map (fun p => p.2) := by
      rw [lastVal, hrev, List.find?_append]
    rw [hR]
    cases hl : ms.reverse.find? (fun p => p.1 = k) with
    | some pr =>
      have hl2 : lastVal ms k = some pr.2 := by rw [lastVal, hl]; rfl
      rw [hl2]
      rfl
    | none =>
      have hl2 : lastVal ms k = none := by rw [lastVal, hl]; rfl
      rw [hl2, Option.none_or]
      by_cases hk : kv.1 = k
      · have hfind : List.find? (fun p => p.1 = k) [kv] = some kv := by
          simp [List.find?, hk]
        rw [hfind, if_pos hk.symm]
        rfl
      · have hfind : List.find? (fun p => p.1 = k) [kv] = none := by
          simp [List.find?, hk]
        rw [hfind, if_neg (fun h => hk h.symm)]
        rfl

/-- Per-key view of the whole merge fold: the most recent object list that
defines the key answers, else the accumulator. -/
theorem lookupA_foldUpd (l : List (List (List Char × JValue))) :
    ∀ (acc : List (List Char × JValue)) (k : List Char),
    lookupA (l.foldl dictUpdate acc) k
      = (l.reverse.findSome? (fun ms => lastVal ms k)).or (lookupA acc k) := by
  induction l with
  | nil => intro acc k; simp [List.findSome?, Option.none_or]
  | cons ms t ih =>
    intro acc k
    rw [List.foldl_cons, ih, lookupA_dictUpdate, List.reverse_cons, List.findSome?_append]
    cases hf : t.reverse.findSome? (fun ms => lastVal ms k) with
    | some v => rfl
    | none =>
      cases hl : lastVal ms k with
      | some v => simp [List.findSome?_cons, hl, Option.or]
      | none => simp [List.findSome?_cons, hl, Option.or]

/-- Per-key value of the merge accumulator: the last fragment (in order)
that parses as an object and defines the key provides the value. -/
theorem lookupA_mergedDict (frags : List (List Char)) (k : List Char) :
    lookupA (mergedDict frags) k
      = (parsedObjs frags).reverse.findSome? (fun ms => lastVal ms k) := by
  rw [mergedDict_eq_fold, lookupA_foldUpd]
  cases hf : (parsedObjs frags).reverse.findSome? (fun ms => lastVal ms k) with
  | some v => rfl
  | none => rfl

/-! ### Claims C2 and C5: `merge_json_fragments` -/

/-- Claim C2 (corrected): for two or more fragments, the output of
`merge_json_fragments` is valid JSON text — it parses back to the merged
object — and when no fragment parses as a JSON object it degrades to the
empty object `\x7b\x7d`.  (With zero fragments the function returns the
empty string and with one fragment the fragment itself, unparsed; see the
counterexample.) -/
theorem merge_json_valid (frags : List (List Char)) (h2 : 2 ≤ frags.length) :
    parseJson (merge_json_fragments frags) = some (.obj (mergedDict frags))
    ∧ (parsedObjs frags = [] → merge_json_fragments frags = ['\x7b', '\x7d']) := by
  obtain ⟨a, b, t, rfl⟩ : ∃ a b t, frags = a :: b :: t := by
    cases frags with
    | nil => simp at h2
    | cons a rest =>
      cases rest with
      | nil => simp at h2
      | cons b t => exact ⟨a, b, t, rfl⟩
  have hm : merge_json_fragments (a :: b :: t)
      = serialize (.obj (mergedDict (a :: b :: t))) := rfl
  refine ⟨by rw [hm]; exact parseJson_serialize _, fun hp => ?_⟩
  have hempty : mergedDict (a :: b :: t) = [] := by
    rw [mergedDict_eq_fold, hp]
    rfl
  rw [hm, hempty]
  simp [serialize, serializeV]

theorem merge_json_valid_witness :
    2 ≤ (["not json".data, "also not json".data] : List (List Char)).length
    ∧ parseJson (merge_json_fragments ["not json".data, "also not json".data])
      = some (.obj (mergedDict ["not json".data, "also not json".data]))
    ∧ (parsedObjs ["not json".data, "also not json".data] = []
      → merge_json_fragments ["not json".data, "also not json".data] = ['\x7b', '\x7d']) := by
  have h := merge_json_valid ["not json".data, "also not json".data] (by decide)
  exact ⟨by decide, h.1, h.2⟩

/-- Counterexample to claim C2 as stated: with zero fragments the function
returns the empty string and with one fragment the fragment itself; neither
is valid JSON when the fragment is not. -/
theorem merge_json_degenerate :
    merge_json_fragments [] = []
    ∧ parseJson [] = none
    ∧ merge_json_fragments ["not json".data] = "not json".data
    ∧ parseJson "not json".data = none :=
  ⟨rfl, rfl, rfl, rfl⟩

/-- Claim C5: for two or more fragments the merged output parses to the
merged object, whose value at any key is the one given by the last
fragment (in order) that parses as a JSON object and defines that key;
non-object and unparsable fragments are skipped.  The two cited examples
evaluate as claimed. -/
theorem merge_last_wins (frags : List (List Char)) (h2 : 2 ≤ frags.length) :
    (∀ k, lookupA (mergedDict frags) k
        = (parsedObjs frags).reverse.findSome? (fun ms => lastVal ms k))
    ∧ parseJson (merge_json_fragments frags) = some (.obj (mergedDict frags))
    ∧ parseJson (merge_json_fragments
        [['\x7b', '"', 'a', '"', ':', '1', '\x7d'],
         ['\x7b', '"', 'a', '"', ':', '2', ',', '"', 'b', '"', ':', '3', '\x7d']])
      = some (.obj [(['a'], .num 2), (['b'], .num 3)])
    ∧ parseJson (merge_json_fragments
        ["not json".data, ['\x7b', '"', 'x', '"', ':', '1', '\x7d']])
      = some (.obj [(['x'], .num 1)]) := by
  refine ⟨fun k => lookupA_mergedDict frags k, (merge_json_valid frags h2).1, ?_, ?_⟩
  · have hm : merge_json_fragments
        [['\x7b', '"', 'a', '"', ':', '1', '\x7d'],
         ['\x7b', '"', 'a', '"', ':', '2', ',', '"', 'b', '"', ':', '3', '\x7d']]
        = serialize (.obj (mergedDict
            [['\x7b', '"', 'a', '"', ':', '1', '\x7d'],
             ['\x7b', '"', 'a', '"', ':', '2', ',', '"', 'b', '"', ':', '3', '\x7d']])) := rfl
    rw [hm, parseJson_serialize]
    rfl
  · have hm : merge_json_fragments
        ["not json".data, ['\x7b', '"', 'x', '"', ':', '1', '\x7d']]
        = serialize (.obj (mergedDict
            ["not json".data, ['\x7b', '"', 'x', '"', ':', '1', '\x7d']])) := rfl
    rw [hm, parseJson_serialize]
    rfl

theorem merge_last_wins_witness :
    2 ≤ ([['\x7b', '"', 'a', '"', ':', '1', '\x7d'],
          ['\x7b', '"', 'a', '"', ':', '2', ',', '"', 'b', '"', ':', '3', '\x7d']]
          : List (List Char)).length
    ∧ lookupA (mergedDict
        [['\x7b', '"', 'a', '"', ':', '1', '\x7d'],
         ['\x7b', '"', 'a', '"', ':', '2', ',', '"', 'b', '"', ':', '3', '\x7d']]) ['a']
      = some (.num 2) := by
  have h := merge_last_wins
    [['\x7b', '"', 'a', '"', ':', '1', '\x7d'],
     ['\x7b', '"', 'a', '"', ':', '2', ',', '"', 'b', '"', ':', '3', '\x7d']] (by decide)
  refine ⟨by decide, (h.1 ['a']).trans ?_⟩
  rfl

end SSDC
